import Mathlib

/-!
# Verification of the placement rule engine (`src/entities/rule.ts`)

A shallow embedding of the constraint rule engine and its overlap-cluster
graph, together with proofs of the specified properties.

Conventions of the embedding:
* JavaScript numbers carrying areas are modelled as rationals (`ℚ`).
* Leaflet layer ids (`_leaflet_id`) are modelled as naturals (`Nat`).
* The geometry oracle (Turf) is abstract: geometry handles are naturals and
  the oracle's predicates are parameters of the definitions.
* The JS objects `layersGraph` and `areaCache` are modelled as a finite key
  set (`Object.keys`) plus a total valuation function; an absent key holds
  the default value (`∅` resp. arbitrary), mirroring `id in obj` checks.
* `throw` is modelled with `Except String`; the unbounded JS recursion is
  modelled with explicit fuel (the call stack), where running out of fuel
  yields the error `"stack overflow"`.
-/

deriving instance DecidableEq for Except

namespace RuleEngine

/-! ## The `Rule` class (rule.ts lines 12–43) -/

/-- An entity as seen by a rule callback; only its identity matters for the
`Rule` state-machine claims, so it is kept abstract. -/
structure MapEntity where
  id : Nat
deriving DecidableEq

/-- Return value of a rule callback:
`{ triggered: boolean, shortMessage?: string, message?: string }`.
A missing optional field is `none`. -/
structure RuleResult where
  triggered : Bool
  shortMessage : Option String := none
  message : Option String := none
deriving DecidableEq

/-- JS truthiness of an optional string: `undefined` and `""` are falsy. -/
def strTruthy : Option String → Bool
  | none => false
  | some s => !(s == "")

/-- The `Rule` class state: configured severity, trigger flag, bound
callback, and the two public message fields. -/
structure Rule where
  sevCfg : Nat
  trig : Bool
  callback : MapEntity → RuleResult
  message : String
  shortMessage : String

/-- The `severity` getter: `this._triggered ? this._severity : 0`. -/
def Rule.severity (r : Rule) : Nat :=
  if r.trig then r.sevCfg else 0

/-- Applying a callback result to the rule state, the body of `checkRule`:
`this._triggered = result.triggered;
if (result.shortMessage) this.shortMessage = result.shortMessage;
if (result.message) this.message = result.message;` -/
def Rule.applyResult (r : Rule) (result : RuleResult) : Rule :=
  { r with
    trig := result.triggered
    shortMessage :=
      match result.shortMessage with
      | some s => if s = "" then r.shortMessage else s
      | none => r.shortMessage
    message :=
      match result.message with
      | some s => if s = "" then r.message else s
      | none => r.message }

/-- `checkRule(entity)` (rule.ts lines 28–33). -/
def Rule.checkRule (r : Rule) (entity : MapEntity) : Rule :=
  r.applyResult (r.callback entity)

/-- The constructor (rule.ts lines 35–42): initial state is untriggered. -/
def Rule.mk' (severity : Nat) (shortMessage message : String)
    (callback : MapEntity → RuleResult) : Rule :=
  { sevCfg := severity, trig := false, callback := callback
    shortMessage := shortMessage, message := message }

/-! ## The overlap graph and area cache (rule.ts lines 230–298) -/

/-- `MAX_CLUSTER_SIZE` (rule.ts line 7). -/
def MAX_CLUSTER_SIZE : ℚ := 1250

/-- Abstract geometry handles consumed by the geometry oracle. -/
abbrev Geom := Nat

/-- The runtime shape of a `layer.toGeoJSON()` value as the engine branches
on it: a single feature (holding its geometry), a feature collection
(holding its member features, at least one), or anything else. -/
inductive GeoJSON where
  | feature (geometry : Geom)
  | featureCollection (first : Geom) (rest : List Geom)
  | unsupported
deriving DecidableEq

/-- A Leaflet layer as the engine sees it: a stable `_leaflet_id` and its
`toGeoJSON()` value. A layer group is a list of these (`eachLayer` order). -/
structure LayerObj where
  leafletId : Nat
  geo : GeoJSON
deriving DecidableEq

/-- The member features of a feature collection (for the spec-side "any
member" predicate). -/
def GeoJSON.members : GeoJSON → List Geom
  | .feature g => [g]
  | .featureCollection f0 rest => f0 :: rest
  | .unsupported => []

/-- `getLayerPolygon` (rule.ts lines 233–246): the geometry of a single
feature, the *first* feature of a feature collection, and a thrown
`"Unsupported geometry type"` otherwise. -/
def getLayerPolygon : GeoJSON → Except String Geom
  | .feature g => .ok g
  | .featureCollection f0 _ => .ok f0
  | .unsupported => .error "Unsupported geometry type"

/-- The ids present in a layer group. -/
def liveIds (layerGroup : List LayerObj) : Finset Nat :=
  (layerGroup.map LayerObj.leafletId).toFinset

/-- `layerGroup.getLayer(id)`. -/
def getLayer (layerGroup : List LayerObj) (id : Nat) : Option LayerObj :=
  layerGroup.find? (fun l => l.leafletId == id)

/-- Insertion of a value into a list, keeping ascending order: the
kernel-computable enumeration step for finite sets of ids. -/
def insSorted (a : Nat) : List Nat → List Nat
  | [] => [a]
  | b :: l => if a ≤ b then a :: b :: l else b :: insSorted a l

instance : LeftCommutative insSorted where
  left_comm := by
    intro a b l
    induction l with
    | nil =>
      by_cases hab : a ≤ b <;> by_cases hba : b ≤ a <;>
        simp [insSorted, hab, hba] <;> omega
    | cons c l ih =>
      by_cases hbc : b ≤ c <;> by_cases hac : a ≤ c <;>
        by_cases hab : a ≤ b <;> by_cases hba : b ≤ a <;>
        simp [insSorted, hbc, hac, hab, hba, ih] <;> omega

/-- A deterministic (ascending) enumeration of a finite set of ids,
modelling iteration over a JS `Set`/`Object.keys`. -/
def sortAsc (s : Finset Nat) : List Nat :=
  Multiset.foldr insSorted [] s.val

/-- The `areaCache` object: its key set and the stored areas. -/
@[ext] structure AreaCache where
  dom : Finset Nat
  val : Nat → ℚ

/-- The module-level mutable state: `layersGraph` (key set plus neighbor
sets; an absent key reads as `∅`) and `areaCache`. -/
@[ext] structure ClusterState where
  graphDom : Finset Nat
  graph : Nat → Finset Nat
  cache : AreaCache

/-- The initial module state: both objects empty. -/
def emptyState : ClusterState :=
  { graphDom := ∅, graph := fun _ => ∅, cache := { dom := ∅, val := fun _ => 0 } }

/-- `deleteLayerFromCache(layerID)` (rule.ts lines 277–283): drop the id's
cache entry and graph entry, then remove it from every remaining key's
neighbor set. -/
def deleteLayerFromCache (st : ClusterState) (layerID : Nat) : ClusterState :=
  { graphDom := st.graphDom.erase layerID
    graph := fun i =>
      if i = layerID then ∅
      else if i ∈ st.graphDom then (st.graph i).erase layerID
      else st.graph i
    cache := { dom := st.cache.dom.erase layerID, val := st.cache.val } }

/-- `deleteFromAreaCache(layerGroup)` (rule.ts lines 287–298): for every id
currently keyed in `layersGraph`, purge it if the layer group no longer
contains it. -/
def deleteFromAreaCache (live : Finset Nat) (st : ClusterState) : ClusterState :=
  (sortAsc st.graphDom).foldl
    (fun s layerID => if layerID ∈ live then s else deleteLayerFromCache s layerID) st

/-- `updateLayerGraph(layerID, connLayersIDs, del)` (rule.ts lines 311–362):
ensure `layerID` is keyed, diff the new neighbor set against the recorded
one, delete dropped edges symmetrically (only when `del`), and add new
edges symmetrically (creating missing keys). -/
def updateLayerGraph (st : ClusterState) (layerID : Nat) (connLayersIDs : Finset Nat)
    (del : Bool) : ClusterState :=
  let st1 :=
    if layerID ∈ st.graphDom then st
    else { st with graphDom := insert layerID st.graphDom
                   graph := Function.update st.graph layerID ∅ }
  let prev := st1.graph layerID
  let idsToDelete := prev \ connLayersIDs
  let idsToCreate := connLayersIDs \ prev
  let st2 :=
    if del then
      { st1 with graph := fun i =>
          if i = layerID then prev \ idsToDelete
          else if i ∈ idsToDelete then (st1.graph i).erase layerID
          else st1.graph i }
    else st1
  { st2 with
    graphDom := st2.graphDom ∪ idsToCreate
    graph := fun i =>
      if i = layerID then st2.graph layerID ∪ idsToCreate
      else if i ∈ idsToCreate then
        (if i ∈ st2.graphDom then insert layerID (st2.graph i) else {layerID})
      else st2.graph i }

/-- `Turf.area(layer.toGeoJSON())` for the layer with a given id, when the
layer group still holds it (`getLayer` + area oracle). -/
def areaOfGroup (areaFn : GeoJSON → ℚ) (layerGroup : List LayerObj) :
    Nat → Option ℚ :=
  fun id => (getLayer layerGroup id).map (fun l => areaFn l.geo)

/-- `getAreaFromCache(layerID, layerGroup)` (rule.ts lines 364–379): return
the memoized area, computing and storing it on a miss; a missing layer is
the thrown error `"Layer not found"`. -/
def getAreaFromCache (areaOf : Nat → Option ℚ) (c : AreaCache) (layerID : Nat) :
    AreaCache × Except String ℚ :=
  if layerID ∈ c.dom then (c, .ok (c.val layerID))
  else
    match areaOf layerID with
    | some a =>
        ({ dom := insert layerID c.dom, val := Function.update c.val layerID a }, .ok a)
    | none => (c, .error "Layer not found")

mutual
/-- `_recursiveGetTotalArea(layerID, layerGroup, checkedLayerIDs)`
(rule.ts lines 380–403): depth-first sum of cached areas over the persistent
graph, guarded by the visited set. The fuel models the bounded JS execution
(one unit per call and per loop step); running out yields
`"stack overflow"`, and every theorem quantifies over sufficient fuel. -/
def recursiveGetTotalArea (areaOf : Nat → Option ℚ) (graph : Nat → Finset Nat) :
    Nat → Nat → AreaCache → Finset Nat → AreaCache × Finset Nat × Except String ℚ
  | 0, _, c, vis => (c, vis, .error "stack overflow")
  | fuel + 1, layerID, c, vis =>
    if layerID ∈ vis then (c, vis, .ok 0)
    else
      let vis1 := insert layerID vis
      let ac := getAreaFromCache areaOf c layerID
      match ac.2 with
      | .error e => (ac.1, vis1, .error e)
      | .ok a =>
          recTotalAreaLoop areaOf graph fuel (sortAsc (graph layerID)) a ac.1 vis1
  termination_by structural fuel _ _ _ => fuel

/-- The `for (let otherLayerID of layersGraph[layerID])` loop inside
`_recursiveGetTotalArea`. -/
def recTotalAreaLoop (areaOf : Nat → Option ℚ) (graph : Nat → Finset Nat) :
    Nat → List Nat → ℚ → AreaCache → Finset Nat → AreaCache × Finset Nat × Except String ℚ
  | 0, _, _, c, vis => (c, vis, .error "stack overflow")
  | _ + 1, [], acc, c, vis => (c, vis, .ok acc)
  | fuel + 1, otherLayerID :: rest, acc, c, vis =>
    let r := recursiveGetTotalArea areaOf graph fuel otherLayerID c vis
    match r.2.2 with
    | .error e => (r.1, r.2.1, .error e)
    | .ok t => recTotalAreaLoop areaOf graph fuel rest (acc + t) r.1 r.2.1
  termination_by structural fuel _ _ _ _ => fuel
end

/-- The `eachLayer` loop inside `getOverlappingLayerIds` (rule.ts lines
256–272): skip the subject itself, extract the other layer's polygon
(propagating the unsupported-geometry error), and collect the id when the
buffered subject overlaps it. -/
def overlapLoop (ovl : Geom → Geom → Bool) (buffer : Geom) (selfId : Nat) :
    List LayerObj → Finset Nat → Except String (Finset Nat)
  | [], acc => .ok acc
  | other :: rest, acc =>
    if selfId = other.leafletId then overlapLoop ovl buffer selfId rest acc
    else
      match getLayerPolygon other.geo with
      | .error e => .error e
      | .ok p =>
          overlapLoop ovl buffer selfId rest
            (if ovl buffer p then insert other.leafletId acc else acc)

/-- `getOverlappingLayerIds(layer, layerGroup)` (rule.ts lines 248–275):
buffer the subject's geometry and collect the ids of all other layers whose
polygon overlaps the buffer. `bufOf` abstracts
`Turf.buffer(layer.toGeoJSON(), 5, meters).features[0]` and `ovl` abstracts
`Turf.booleanOverlap`. -/
def getOverlappingLayerIds (ovl : Geom → Geom → Bool) (bufOf : GeoJSON → Geom)
    (layer : LayerObj) (layerGroup : List LayerObj) : Except String (Finset Nat) :=
  overlapLoop ovl (bufOf layer.geo) layer.leafletId layerGroup ∅

/-- `Math.round`: round half away from zero is `⌊q + 1/2⌋` for the
nonnegative totals involved; JS rounds half up. -/
def jsRound (q : ℚ) : ℤ := ⌊q + 1 / 2⌋

/-- The trigger decision shared by both cluster rules (rule.ts lines
477–480 and 489–492): strict comparison against `MAX_CLUSTER_SIZE`, with a
short message carrying the rounded total. -/
def clusterDecision (totalArea : ℚ) : RuleResult :=
  if totalArea > MAX_CLUSTER_SIZE then
    { triggered := true
      shortMessage := some ("Cluster too big: " ++ toString (jsRound totalArea) ++ "m²") }
  else { triggered := false }

/-- The `fastOverlap` callback (rule.ts lines 425–481) up to the computed
cluster total: garbage-collection pass, neighbor discovery, incremental
graph update, then the recursive traversal. Returns the state as mutated so
far even when an error is thrown. -/
def fastOverlapTotal (ovl : Geom → Geom → Bool) (bufOf : GeoJSON → Geom)
    (areaFn : GeoJSON → ℚ) (layerGroup : List LayerObj) (entityLayer : LayerObj)
    (fuel : Nat) (st : ClusterState) : ClusterState × Except String ℚ :=
  let st1 := deleteFromAreaCache (liveIds layerGroup) st
  match getOverlappingLayerIds ovl bufOf entityLayer layerGroup with
  | .error e => (st1, .error e)
  | .ok overlappingLayersIDs =>
    let st2 := updateLayerGraph st1 entityLayer.leafletId overlappingLayersIDs true
    let r := recursiveGetTotalArea (areaOfGroup areaFn layerGroup) st2.graph fuel
        entityLayer.leafletId st2.cache ∅
    match r.2.2 with
    | .error e => ({ st2 with cache := r.1 }, .error e)
    | .ok total => ({ st2 with cache := r.1 }, .ok total)

/-- The full `fastOverlap` callback: the computed total fed into the trigger
decision. -/
def fastOverlapEval (ovl : Geom → Geom → Bool) (bufOf : GeoJSON → Geom)
    (areaFn : GeoJSON → ℚ) (layerGroup : List LayerObj) (entityLayer : LayerObj)
    (fuel : Nat) (st : ClusterState) : ClusterState × Except String RuleResult :=
  let r := fastOverlapTotal ovl bufOf areaFn layerGroup entityLayer fuel st
  (r.1, r.2.map clusterDecision)

mutual
/-- `_getTotalAreaOfOverlappingEntities(layer, layerGroup, checked)`
(rule.ts lines 495–542): the naive recomputation — raw area of the current
layer plus a recursive visit of every other layer whose polygon overlaps
the current layer's buffer, guarded by the visited set. -/
def getTotalAreaOfOverlappingEntities (ovl : Geom → Geom → Bool)
    (bufOf : GeoJSON → Geom) (areaFn : GeoJSON → ℚ) (layerGroup : List LayerObj) :
    Nat → LayerObj → Finset Nat → Except String (ℚ × Finset Nat)
  | 0, _, _ => .error "stack overflow"
  | fuel + 1, layer, checked =>
    if layer.leafletId ∈ checked then .ok (0, checked)
    else
      naiveLoop ovl bufOf areaFn layerGroup fuel layer layerGroup
        (areaFn layer.geo) (insert layer.leafletId checked)
  termination_by structural fuel _ _ => fuel

/-- The `eachLayer` loop inside `_getTotalAreaOfOverlappingEntities`
(rule.ts lines 517–539). An unrecognized geometry shape is *silently
skipped* here (the `return;` at line 529), unlike `getLayerPolygon`. -/
def naiveLoop (ovl : Geom → Geom → Bool) (bufOf : GeoJSON → Geom)
    (areaFn : GeoJSON → ℚ) (layerGroup : List LayerObj) :
    Nat → LayerObj → List LayerObj → ℚ → Finset Nat → Except String (ℚ × Finset Nat)
  | 0, _, _, _, _ => .error "stack overflow"
  | _ + 1, _, [], acc, checked => .ok (acc, checked)
  | fuel + 1, layer, other :: rest, acc, checked =>
    if layer.leafletId = other.leafletId then
      naiveLoop ovl bufOf areaFn layerGroup fuel layer rest acc checked
    else
      match (match other.geo with
             | .feature g => some g
             | .featureCollection f0 _ => some f0
             | .unsupported => none : Option Geom) with
      | none => naiveLoop ovl bufOf areaFn layerGroup fuel layer rest acc checked
      | some otherLayerPolygon =>
        if ovl (bufOf layer.geo) otherLayerPolygon then
          match getTotalAreaOfOverlappingEntities ovl bufOf areaFn layerGroup fuel
              other checked with
          | .error e => .error e
          | .ok tc =>
              naiveLoop ovl bufOf areaFn layerGroup fuel layer rest (acc + tc.1) tc.2
        else naiveLoop ovl bufOf areaFn layerGroup fuel layer rest acc checked
  termination_by structural fuel _ _ _ _ => fuel
end

/-- The `isBufferOverlappingRecursive` callback (rule.ts lines 483–493):
the naive total fed into the same trigger decision. -/
def isBufferOverlappingRecursiveEval (ovl : Geom → Geom → Bool)
    (bufOf : GeoJSON → Geom) (areaFn : GeoJSON → ℚ) (layerGroup : List LayerObj)
    (entityLayer : LayerObj) (fuel : Nat) : Except String RuleResult :=
  match getTotalAreaOfOverlappingEntities ovl bufOf areaFn layerGroup fuel
      entityLayer ∅ with
  | .error e => .error e
  | .ok (t, _) => .ok (clusterDecision t)

/-- The inputs of one cluster-rule evaluation: the oracle functions, the
snapshot of the layer group, the evaluated entity's layer, and the stack
budget. -/
structure EvalInput where
  ovl : Geom → Geom → Bool
  bufOf : GeoJSON → Geom
  areaFn : GeoJSON → ℚ
  layerGroup : List LayerObj
  entityLayer : LayerObj
  fuel : Nat

/-- The state after one `fastOverlap` evaluation (state persists whether or
not the evaluation threw). -/
def evalStep (st : ClusterState) (inp : EvalInput) : ClusterState :=
  (fastOverlapEval inp.ovl inp.bufOf inp.areaFn inp.layerGroup inp.entityLayer
    inp.fuel st).1

/-- The state after a sequence of `fastOverlap` evaluations. -/
def runEvals (l : List EvalInput) (st : ClusterState) : ClusterState :=
  l.foldl evalStep st

/-! ## Derived notions used in the claim statements -/

/-- The neighbor set recorded for an id before an update: its stored set
when keyed, the empty set when the key is first being created. -/
def prevSet (st : ClusterState) (layerID : Nat) : Finset Nat :=
  if layerID ∈ st.graphDom then st.graph layerID else ∅

/-- Symmetry of the overlap graph: `a ∈ graph[b] ⇔ b ∈ graph[a]`. -/
def Symm (st : ClusterState) : Prop :=
  ∀ a b, a ∈ st.graph b ↔ b ∈ st.graph a

/-- Well-formedness of the module state, satisfied by every state the
program can reach: ids without a graph key hold the empty set, neighbor
sets mention only keyed ids, and every cached id is keyed. -/
def WF (st : ClusterState) : Prop :=
  (∀ i, i ∉ st.graphDom → st.graph i = ∅) ∧
  (∀ i, st.graph i ⊆ st.graphDom) ∧
  st.cache.dom ⊆ st.graphDom

/-- Modelled from the spec: "a feature collection is treated as 'any one of
its member features satisfying the predicate satisfies the whole'" — the
spec-side adjacency predicate against a possibly-collection geometry, to be
compared with the code's `getLayerPolygon`-based test. -/
def overlapsAnyMember (ovl : Geom → Geom → Bool) (buffer : Geom) (g : GeoJSON) : Bool :=
  g.members.any (fun p => ovl buffer p)

/-- Modelled from the spec: "discarding `E`'s edges entirely and inserting
`N2` fresh" — wholesale replacement of an entity's adjacency, to be
compared with the incremental edge diff of `updateLayerGraph`. -/
def wholesaleReplace (st : ClusterState) (layerID : Nat) (conn : Finset Nat) :
    ClusterState :=
  { st with
    graphDom := insert layerID st.graphDom ∪ conn
    graph := fun i =>
      if i = layerID then conn
      else if i ∈ conn then insert layerID ((st.graph i).erase layerID)
      else (st.graph i).erase layerID }

/-- The directed geometric adjacency test both cluster algorithms apply
from a subject layer `a` to another layer `b`: the buffered subject against
`b`'s extracted polygon (first feature only); an unsupported shape never
matches. -/
def adjTest (ovl : Geom → Geom → Bool) (bufOf : GeoJSON → Geom) (a b : LayerObj) : Bool :=
  match b.geo with
  | .feature g => ovl (bufOf a.geo) g
  | .featureCollection f0 _ => ovl (bufOf a.geo) f0
  | .unsupported => false

/-- The true neighbor set of a layer in a snapshot: all other layers of the
group passing the adjacency test. -/
def trueNbrs (ovl : Geom → Geom → Bool) (bufOf : GeoJSON → Geom)
    (layerGroup : List LayerObj) (a : LayerObj) : Finset Nat :=
  ((layerGroup.filter
      (fun o => (a.leafletId != o.leafletId) && adjTest ovl bufOf a o)).map
    LayerObj.leafletId).toFinset

/-- The successor function of the naive recursion, per id. -/
def naiveSucc (ovl : Geom → Geom → Bool) (bufOf : GeoJSON → Geom)
    (layerGroup : List LayerObj) (i : Nat) : Finset Nat :=
  match getLayer layerGroup i with
  | some l => trueNbrs ovl bufOf layerGroup l
  | none => ∅

/-- One step of a traversal over successor sets `succ` that avoids the
visited set `vis`. -/
def reachStep (succ : Nat → Finset Nat) (vis : Set Nat) (a b : Nat) : Prop :=
  b ∈ succ a ∧ b ∉ vis

/-- The set of nodes a visited-set-guarded depth-first traversal started at
`x` with initial visited set `vis` newly visits: nothing if `x` is already
visited, otherwise everything reachable from `x` along steps that avoid
`vis`. -/
def NewReach (succ : Nat → Finset Nat) (vis : Set Nat) (x : Nat) : Set Nat :=
  {z | x ∉ vis ∧ Relation.ReflTransGen (reachStep succ vis) x z}

/-- The persistent graph agrees with the snapshot: exactly the live ids are
keyed and each live layer's recorded neighbor set is its true neighbor set. -/
def clusterSynced (ovl : Geom → Geom → Bool) (bufOf : GeoJSON → Geom)
    (layerGroup : List LayerObj) (st : ClusterState) : Prop :=
  st.graphDom = liveIds layerGroup ∧
  (∀ l ∈ layerGroup, st.graph l.leafletId = trueNbrs ovl bufOf layerGroup l) ∧
  (∀ i, i ∉ liveIds layerGroup → st.graph i = ∅)

/-- Every cached area agrees with the live snapshot's area oracle. -/
def cacheConsistent (areaFn : GeoJSON → ℚ) (layerGroup : List LayerObj)
    (st : ClusterState) : Prop :=
  ∀ i ∈ st.cache.dom, areaOfGroup areaFn layerGroup i = some (st.cache.val i)

/-! ## Concrete example snapshots (used by witnesses and counterexamples) -/

/-- Example layer 1: a single feature with geometry handle 10. -/
def exL1 : LayerObj := ⟨1, .feature 10⟩

/-- Example layer 2: a single feature with geometry handle 20. -/
def exL2 : LayerObj := ⟨2, .feature 20⟩

/-- Example layer 3: a single feature with geometry handle 30. -/
def exL3 : LayerObj := ⟨3, .feature 30⟩

/-- Example layer with id 2 holding a feature collection whose members are
the handles 20 and 21. -/
def exLFC : LayerObj := ⟨2, .featureCollection 20 [21]⟩

/-- Example layer with id 2 holding an unsupported geometry value. -/
def exLU : LayerObj := ⟨2, .unsupported⟩

/-- Example buffer oracle: buffering a geometry adds 100 to its handle. -/
def exBuf : GeoJSON → Geom
  | .feature g => g + 100
  | .featureCollection f0 _ => f0 + 100
  | .unsupported => 999

/-- Example overlap oracle: layers 1 and 2 are mutually adjacent. -/
def exOvlPair : Geom → Geom → Bool := fun a b =>
  (a == 110 && b == 20) || (a == 120 && b == 10)

/-- Example area oracle: 700 m² for layer 1's geometry, 600 m² for
layer 2's. -/
def exAreaPair : GeoJSON → ℚ
  | .feature 10 => 700
  | .feature 20 => 600
  | _ => 0

/-- Example overlap oracle: chain 1–2–3 (1↔2 and 2↔3 adjacent, 1 and 3
not), symmetric. -/
def exOvlChain : Geom → Geom → Bool := fun a b =>
  (a == 110 && b == 20) || (a == 120 && b == 10) ||
  (a == 120 && b == 30) || (a == 130 && b == 20)

/-- Example area oracle: 500 m² for every geometry. -/
def exArea500 : GeoJSON → ℚ := fun _ => 500

/-- Example overlap oracle: layer 1's buffer overlaps only the *second*
member (handle 21) of a feature collection. -/
def exOvlFC : Geom → Geom → Bool := fun a b => a == 110 && b == 21

/-- Example overlap oracle: layer 1's buffer overlaps the *first* member
(handle 20) of a feature collection. -/
def exOvlFCfirst : Geom → Geom → Bool := fun a b => a == 110 && b == 20

/-! ## Claims C9 and C10 -/

/-- **C9.** Every `checkRule(entity)` call overwrites the `triggered` flag
with the callback result's `triggered` value; `shortMessage` and `message`
are overwritten only if the result carries them (otherwise they retain
their previous values); the configured severity and the bound callback are
never changed by `checkRule`. -/
theorem c9_checkRule_frame (r : Rule) (entity : MapEntity) :
    (r.checkRule entity).trig = (r.callback entity).triggered ∧
    ((r.callback entity).shortMessage = none →
      (r.checkRule entity).shortMessage = r.shortMessage) ∧
    ((r.callback entity).message = none →
      (r.checkRule entity).message = r.message) ∧
    ((r.checkRule entity).shortMessage = r.shortMessage ∨
      (r.callback entity).shortMessage = some (r.checkRule entity).shortMessage) ∧
    ((r.checkRule entity).message = r.message ∨
      (r.callback entity).message = some (r.checkRule entity).message) ∧
    (r.checkRule entity).sevCfg = r.sevCfg ∧
    (r.checkRule entity).callback = r.callback := by
  unfold Rule.checkRule Rule.applyResult
  refine ⟨rfl, ?_, ?_, ?_, ?_, rfl, rfl⟩
  · intro h; simp [h]
  · intro h; simp [h]
  · rcases h : (r.callback entity).shortMessage with _ | s
    · simp
    · by_cases hs : s = "" <;> simp [hs]
  · rcases h : (r.callback entity).message with _ | s
    · simp
    · by_cases hs : s = "" <;> simp [hs]

/-- **C10.** Whether a callback-supplied `shortMessage`/`message` is applied
is decided by string truthiness, not field presence: a result carrying the
empty string leaves the stored message unchanged, exactly as if the field
had been omitted. -/
theorem c10_empty_string_like_omitted (r : Rule) (result : RuleResult)
    (entity : MapEntity) :
    r.applyResult { result with shortMessage := some "" } =
      r.applyResult { result with shortMessage := none } ∧
    r.applyResult { result with message := some "" } =
      r.applyResult { result with message := none } ∧
    ((r.callback entity).shortMessage = some "" →
      (r.checkRule entity).shortMessage = r.shortMessage) ∧
    ((r.callback entity).message = some "" →
      (r.checkRule entity).message = r.message) := by
  refine ⟨by simp [Rule.applyResult], by simp [Rule.applyResult], ?_, ?_⟩
  · intro h; simp [Rule.checkRule, Rule.applyResult, h]
  · intro h; simp [Rule.checkRule, Rule.applyResult, h]

/-! ## Claim C4: the trigger decision -/

/-- **C4.** Whenever the incremental cluster rule computes a total `t`, it
triggers iff `t` strictly exceeds `MAX_CLUSTER_SIZE` (1250 m²); on trigger
the short message is `"Cluster too big: <rounded t>m²"`, and at or below
the threshold it does not trigger. -/
theorem c4_cluster_threshold (ovl : Geom → Geom → Bool) (bufOf : GeoJSON → Geom)
    (areaFn : GeoJSON → ℚ) (layerGroup : List LayerObj) (entityLayer : LayerObj)
    (fuel : Nat) (st st' : ClusterState) (t : ℚ)
    (h : fastOverlapTotal ovl bufOf areaFn layerGroup entityLayer fuel st = (st', .ok t)) :
    (fastOverlapEval ovl bufOf areaFn layerGroup entityLayer fuel st).2 =
      .ok (clusterDecision t) ∧
    ((clusterDecision t).triggered = true ↔ MAX_CLUSTER_SIZE < t) ∧
    (MAX_CLUSTER_SIZE < t →
      clusterDecision t =
        ⟨true, some ("Cluster too big: " ++ toString (jsRound t) ++ "m²"), none⟩) ∧
    (t ≤ MAX_CLUSTER_SIZE → clusterDecision t = { triggered := false }) := by
  refine ⟨by simp [fastOverlapEval, h, Except.map], ?_, ?_, ?_⟩
  · by_cases ht : MAX_CLUSTER_SIZE < t <;> simp [clusterDecision, ht]
  · intro ht; simp [clusterDecision, ht]
  · intro ht; simp [clusterDecision, not_lt.mpr ht]

/-- Witness for C4 on the two-layer snapshot with areas 700 and 600:
the computed total 1300 exceeds the threshold. -/
theorem c4_cluster_threshold_witness :
    (fastOverlapEval exOvlPair exBuf exAreaPair [exL1, exL2] exL1 10 emptyState).2 =
      .ok (clusterDecision 1300) ∧
    ((clusterDecision 1300).triggered = true ↔ MAX_CLUSTER_SIZE < 1300) ∧
    (MAX_CLUSTER_SIZE < 1300 →
      clusterDecision 1300 =
        ⟨true, some ("Cluster too big: " ++ toString (jsRound 1300) ++ "m²"), none⟩) ∧
    ((1300 : ℚ) ≤ MAX_CLUSTER_SIZE → clusterDecision 1300 = { triggered := false }) :=
  c4_cluster_threshold exOvlPair exBuf exAreaPair [exL1, exL2] exL1 10 emptyState
    (fastOverlapTotal exOvlPair exBuf exAreaPair [exL1, exL2] exL1 10 emptyState).1 1300
    (Prod.ext rfl (by
      simp [fastOverlapTotal, deleteFromAreaCache, emptyState, sortAsc,
        getOverlappingLayerIds, overlapLoop, getLayerPolygon, exL1, exL2, exBuf,
        exOvlPair, updateLayerGraph, recursiveGetTotalArea, recTotalAreaLoop,
        getAreaFromCache, areaOfGroup, getLayer, exAreaPair, Function.update, insSorted]
      norm_num))

/-! ## Claim C1: incremental vs naive, the counterexample part -/

/-- **C1 counterexample.** On the chain snapshot 1–2–3 (areas 500 each,
1↔2 and 2↔3 adjacent) evaluated from the program's initial empty module
state, the incremental algorithm computes a cluster total of 1000 m² for
layer 1 and does not trigger, while the naive algorithm computes 1500 m²
and triggers: the two disagree on both the total and the trigger decision
for the same snapshot. -/
theorem c1_counterexample :
    (fastOverlapTotal exOvlChain exBuf exArea500 [exL1, exL2, exL3] exL1 40 emptyState).2 =
      .ok 1000 ∧
    (getTotalAreaOfOverlappingEntities exOvlChain exBuf exArea500 [exL1, exL2, exL3]
        40 exL1 ∅).map Prod.fst = .ok 1500 ∧
    (fastOverlapEval exOvlChain exBuf exArea500 [exL1, exL2, exL3] exL1 40 emptyState).2 =
      .ok { triggered := false } ∧
    (isBufferOverlappingRecursiveEval exOvlChain exBuf exArea500 [exL1, exL2, exL3]
        exL1 40).map RuleResult.triggered = .ok true := by
  refine ⟨?_, ?_, ?_, ?_⟩ <;>
    · simp [fastOverlapTotal, fastOverlapEval, deleteFromAreaCache, emptyState, sortAsc,
        getOverlappingLayerIds, overlapLoop, getLayerPolygon, exL1, exL2, exL3, exBuf,
        exOvlChain, updateLayerGraph, recursiveGetTotalArea, recTotalAreaLoop,
        getAreaFromCache, areaOfGroup, getLayer, exArea500, Function.update, insSorted,
        getTotalAreaOfOverlappingEntities, naiveLoop, isBufferOverlappingRecursiveEval,
        clusterDecision, MAX_CLUSTER_SIZE, Except.map]
      norm_num

/-! ## Claim C7: feature collections in neighbor discovery -/

/-- Success-characterization of the neighbor-discovery loop: an id is
collected iff it was already collected or some group member carries it, is
not the subject, and its extracted polygon overlaps the buffer. -/
theorem overlapLoop_ok_iff (ovl : Geom → Geom → Bool) (buffer : Geom) (selfId : Nat) :
    ∀ (grp : List LayerObj) (acc S : Finset Nat),
      overlapLoop ovl buffer selfId grp acc = .ok S →
      ∀ x, x ∈ S ↔ (x ∈ acc ∨ ∃ o ∈ grp, o.leafletId = x ∧ selfId ≠ x ∧
        ∃ p, getLayerPolygon o.geo = .ok p ∧ ovl buffer p = true) := by
  intro grp
  induction grp with
  | nil =>
    intro acc S h x
    simp only [overlapLoop, Except.ok.injEq] at h
    subst h; simp
  | cons o rest ih =>
    intro acc S h x
    rw [overlapLoop] at h
    by_cases hself : selfId = o.leafletId
    · rw [if_pos hself] at h
      rw [ih _ _ h x]
      simp only [List.mem_cons]
      constructor
      · rintro (hx | ⟨b, hb, hprop⟩)
        · exact Or.inl hx
        · exact Or.inr ⟨b, Or.inr hb, hprop⟩
      · rintro (hx | ⟨b, rfl | hb, hbid, hne, hp⟩)
        · exact Or.inl hx
        · exact absurd (hself.trans hbid) hne
        · exact Or.inr ⟨b, hb, hbid, hne, hp⟩
    · rw [if_neg hself] at h
      cases hpoly : getLayerPolygon o.geo with
      | error e =>
        simp only [hpoly] at h
        exact absurd h (by simp)
      | ok p =>
        simp only [hpoly] at h
        by_cases hovl : ovl buffer p = true
        · rw [if_pos hovl] at h
          rw [ih _ _ h x]
          simp only [Finset.mem_insert, List.mem_cons]
          constructor
          · rintro ((rfl | hx) | ⟨b, hb, hprop⟩)
            · exact Or.inr ⟨o, Or.inl rfl, rfl, hself, p, hpoly, hovl⟩
            · exact Or.inl hx
            · exact Or.inr ⟨b, Or.inr hb, hprop⟩
          · rintro (hx | ⟨b, rfl | hb, hbid, hne, q, hq, hovq⟩)
            · exact Or.inl (Or.inr hx)
            · exact Or.inl (Or.inl hbid.symm)
            · exact Or.inr ⟨b, hb, hbid, hne, q, hq, hovq⟩
        · rw [if_neg hovl] at h
          rw [ih _ _ h x]
          simp only [List.mem_cons]
          constructor
          · rintro (hx | ⟨b, hb, hprop⟩)
            · exact Or.inl hx
            · exact Or.inr ⟨b, Or.inr hb, hprop⟩
          · rintro (hx | ⟨b, rfl | hb, hbid, hne, q, hq, hovq⟩)
            · exact Or.inl hx
            · rw [hpoly] at hq
              simp only [Except.ok.injEq] at hq
              subst hq
              exact absurd hovq hovl
            · exact Or.inr ⟨b, hb, hbid, hne, q, hq, hovq⟩

/-- **C7 counterexample.** A feature-collection entity whose *second*
member feature (and only that member) overlaps the buffered subject is
*not* collected as a neighbor, although the spec-side "any member"
predicate holds: discovery returns the empty set. -/
theorem c7_counterexample :
    getOverlappingLayerIds exOvlFC exBuf exL1 [exL1, exLFC] = .ok ∅ ∧
    overlapsAnyMember exOvlFC (exBuf exL1.geo) exLFC.geo = true := by decide

/-- **C7 amended.** During cluster neighbor discovery, a feature-collection
entity is adjacent to the buffered subject iff the predicate holds of its
*first* member feature; members beyond the first are ignored. -/
theorem c7_amended_first_member_only (ovl : Geom → Geom → Bool) (bufOf : GeoJSON → Geom)
    (E : LayerObj) (layerGroup : List LayerObj) (S : Finset Nat)
    (hnodup : (layerGroup.map LayerObj.leafletId).Nodup)
    (hok : getOverlappingLayerIds ovl bufOf E layerGroup = .ok S)
    (b : LayerObj) (hb : b ∈ layerGroup) (f0 : Geom) (rest : List Geom)
    (hgeo : b.geo = .featureCollection f0 rest) :
    b.leafletId ∈ S ↔ (E.leafletId ≠ b.leafletId ∧ ovl (bufOf E.geo) f0 = true) := by
  rw [overlapLoop_ok_iff ovl (bufOf E.geo) E.leafletId layerGroup ∅ S hok b.leafletId]
  simp only [Finset.not_mem_empty, false_or]
  constructor
  · rintro ⟨o, ho, hoid, hne, p, hp, hovp⟩
    have hob : o = b := List.inj_on_of_nodup_map hnodup ho hb hoid
    subst hob
    rw [hgeo] at hp
    simp only [getLayerPolygon, Except.ok.injEq] at hp
    subst hp
    exact ⟨hne, hovp⟩
  · rintro ⟨hne, hovl⟩
    exact ⟨b, hb, rfl, hne, f0, by rw [hgeo]; rfl, hovl⟩

/-- Witness for the amended C7: with the oracle hitting the first member
feature, the feature-collection entity *is* collected. -/
theorem c7_amended_witness :
    (2 : Nat) ∈ ({2} : Finset Nat) ↔
      ((1 : Nat) ≠ 2 ∧ exOvlFCfirst (exBuf exL1.geo) 20 = true) := by
  have h := c7_amended_first_member_only exOvlFCfirst exBuf exL1 [exL1, exLFC] {2}
    (by decide) (by decide) exLFC (by simp) 20 [21] rfl
  simpa [exLFC, exL1] using h

/-! ## Claim C8: unsupported geometry shapes -/

/-- If the group holds a layer other than the subject whose geometry shape
is unrecognized, neighbor discovery throws `"Unsupported geometry type"`. -/
theorem overlapLoop_unsupported (ovl : Geom → Geom → Bool) (buffer : Geom)
    (selfId : Nat) :
    ∀ (grp : List LayerObj) (acc : Finset Nat),
      (∃ o ∈ grp, o.leafletId ≠ selfId ∧ o.geo = .unsupported) →
      overlapLoop ovl buffer selfId grp acc = .error "Unsupported geometry type" := by
  intro grp
  induction grp with
  | nil => rintro acc ⟨o, ho, -⟩; exact absurd ho (List.not_mem_nil o)
  | cons o rest ih =>
    rintro acc ⟨b, hb, hbid, hbgeo⟩
    rw [overlapLoop]
    rcases List.mem_cons.mp hb with rfl | hb
    · rw [if_neg (fun h => hbid h.symm)]
      rw [hbgeo]
      rfl
    · by_cases hself : selfId = o.leafletId
      · rw [if_pos hself]
        exact ih acc ⟨b, hb, hbid, hbgeo⟩
      · rw [if_neg hself]
        cases hpoly : getLayerPolygon o.geo with
        | error e =>
          simp only [getLayerPolygon] at hpoly
          split at hpoly
          · exact absurd hpoly (by simp)
          · exact absurd hpoly (by simp)
          · simp only [Except.error.injEq] at hpoly
            simp [hpoly]
        | ok p =>
          simp only
          exact ih _ ⟨b, hb, hbid, hbgeo⟩

/-- The naive recursion's only failure mode is running out of fuel: it
never reports an unsupported geometry shape. -/
theorem naiveErrorsOnlyOverflow (ovl : Geom → Geom → Bool) (bufOf : GeoJSON → Geom)
    (areaFn : GeoJSON → ℚ) (layerGroup : List LayerObj) :
    ∀ fuel,
      (∀ layer checked e,
        getTotalAreaOfOverlappingEntities ovl bufOf areaFn layerGroup fuel layer
          checked = .error e → e = "stack overflow") ∧
      (∀ layer others acc checked e,
        naiveLoop ovl bufOf areaFn layerGroup fuel layer others acc checked =
          .error e → e = "stack overflow") := by
  intro fuel
  induction fuel with
  | zero =>
    constructor
    · intro layer checked e h
      rw [getTotalAreaOfOverlappingEntities] at h
      simp only [Except.error.injEq] at h
      exact h.symm
    · intro layer others acc checked e h
      rw [naiveLoop] at h
      simp only [Except.error.injEq] at h
      exact h.symm
  | succ n ih =>
    constructor
    · intro layer checked e h
      rw [getTotalAreaOfOverlappingEntities] at h
      by_cases hmem : layer.leafletId ∈ checked
      · rw [if_pos hmem] at h
        exact absurd h (by simp)
      · rw [if_neg hmem] at h
        exact ih.2 _ _ _ _ _ h
    · intro layer others acc checked e h
      cases others with
      | nil =>
        rw [naiveLoop] at h
        exact absurd h (by simp)
      | cons o rest =>
        rw [naiveLoop] at h
        by_cases hid : layer.leafletId = o.leafletId
        · rw [if_pos hid] at h
          exact ih.2 _ _ _ _ _ h
        · rw [if_neg hid] at h
          cases hgeo : o.geo with
          | feature g =>
            simp only [hgeo] at h
            by_cases hovl : ovl (bufOf layer.geo) g = true
            · rw [if_pos hovl] at h
              cases hrec : getTotalAreaOfOverlappingEntities ovl bufOf areaFn
                  layerGroup n o checked with
              | error e2 =>
                rw [hrec] at h
                simp only [Except.error.injEq] at h
                exact h ▸ ih.1 _ _ _ hrec
              | ok tc =>
                rw [hrec] at h
                exact ih.2 _ _ _ _ _ h
            · rw [if_neg hovl] at h
              exact ih.2 _ _ _ _ _ h
          | featureCollection f0 rest2 =>
            simp only [hgeo] at h
            by_cases hovl : ovl (bufOf layer.geo) f0 = true
            · rw [if_pos hovl] at h
              cases hrec : getTotalAreaOfOverlappingEntities ovl bufOf areaFn
                  layerGroup n o checked with
              | error e2 =>
                rw [hrec] at h
                simp only [Except.error.injEq] at h
                exact h ▸ ih.1 _ _ _ hrec
              | ok tc =>
                rw [hrec] at h
                exact ih.2 _ _ _ _ _ h
            · rw [if_neg hovl] at h
              exact ih.2 _ _ _ _ _ h
          | unsupported =>
            simp only [hgeo] at h
            exact ih.2 _ _ _ _ _ h

/-- **C8 counterexample.** On a snapshot holding a layer with an
unrecognized geometry shape, the naive algorithm does *not* fail: it
silently skips the malformed layer and returns the subject's own area,
while the incremental algorithm throws `"Unsupported geometry type"`. -/
theorem c8_counterexample :
    getTotalAreaOfOverlappingEntities exOvlPair exBuf exAreaPair [exL1, exLU] 10 exL1 ∅ =
      .ok (700, {1}) ∧
    (fastOverlapEval exOvlPair exBuf exAreaPair [exL1, exLU] exL1 10 emptyState).2 =
      .error "Unsupported geometry type" := by decide

/-- **C8 amended.** A geometry value that is neither a single feature nor a
feature collection is a hard `"Unsupported geometry type"` error in the
*incremental* algorithm (propagated from neighbor discovery), but the
*naive* algorithm silently skips such layers — its only error is fuel
exhaustion. -/
theorem c8_amended_only_incremental_fails (ovl : Geom → Geom → Bool)
    (bufOf : GeoJSON → Geom) (areaFn : GeoJSON → ℚ) (layerGroup : List LayerObj)
    (E : LayerObj) (fuel : Nat) (st : ClusterState)
    (h : ∃ b ∈ layerGroup, b.leafletId ≠ E.leafletId ∧ b.geo = .unsupported) :
    (fastOverlapEval ovl bufOf areaFn layerGroup E fuel st).2 =
      .error "Unsupported geometry type" ∧
    (∀ fuel2 layer checked e,
      getTotalAreaOfOverlappingEntities ovl bufOf areaFn layerGroup fuel2 layer
        checked = .error e → e = "stack overflow") := by
  constructor
  · have hdisc : getOverlappingLayerIds ovl bufOf E layerGroup =
        .error "Unsupported geometry type" :=
      overlapLoop_unsupported ovl (bufOf E.geo) E.leafletId layerGroup ∅ h
    simp [fastOverlapEval, fastOverlapTotal, hdisc, Except.map]
  · intro fuel2 layer checked e he
    exact (naiveErrorsOnlyOverflow ovl bufOf areaFn layerGroup fuel2).1 _ _ _ he

/-- Witness for the amended C8 at the concrete malformed snapshot. -/
theorem c8_amended_witness :
    (fastOverlapEval exOvlPair exBuf exAreaPair [exL1, exLU] exL1 10 emptyState).2 =
      .error "Unsupported geometry type" ∧
    (∀ fuel2 layer checked e,
      getTotalAreaOfOverlappingEntities exOvlPair exBuf exAreaPair [exL1, exLU] fuel2
        layer checked = .error e → e = "stack overflow") :=
  c8_amended_only_incremental_fails exOvlPair exBuf exAreaPair [exL1, exLU] exL1 10
    emptyState ⟨exLU, by decide, by decide, rfl⟩


/-! ## Enumeration and garbage-collection lemmas -/

/-- Membership in an insertion-sorted list. -/
theorem mem_insSorted (a x : Nat) : ∀ l : List Nat, x ∈ insSorted a l ↔ x = a ∨ x ∈ l := by
  intro l
  induction l with
  | nil => simp [insSorted]
  | cons b l ih =>
    by_cases hab : a ≤ b
    · simp [insSorted, hab]
    · simp [insSorted, hab, ih]
      tauto

/-- `sortAsc` enumerates exactly the members of the set. -/
theorem mem_sortAsc (s : Finset Nat) (x : Nat) : x ∈ sortAsc s ↔ x ∈ s := by
  have key : ∀ m : Multiset Nat, x ∈ Multiset.foldr insSorted [] m ↔ x ∈ m := by
    intro m
    induction m using Multiset.induction_on with
    | empty => simp
    | cons a m ih => simp [Multiset.foldr_cons, mem_insSorted, ih]
  rw [sortAsc, key]
  rfl

/-- Net effect of the garbage-collection fold over an arbitrary worklist
`l`: every dead worklist id is fully purged — from the graph's key set,
from the cache, and from every remaining neighbor set. -/
theorem gcFold_spec (live : Finset Nat) :
    ∀ (l : List Nat) (st : ClusterState),
      (l.foldl (fun s layerID =>
          if layerID ∈ live then s else deleteLayerFromCache s layerID) st).graphDom =
        st.graphDom \ (l.filter (fun k => decide (k ∉ live))).toFinset ∧
      (l.foldl (fun s layerID =>
          if layerID ∈ live then s else deleteLayerFromCache s layerID) st).cache.dom =
        st.cache.dom \ (l.filter (fun k => decide (k ∉ live))).toFinset ∧
      (l.foldl (fun s layerID =>
          if layerID ∈ live then s else deleteLayerFromCache s layerID) st).cache.val =
        st.cache.val ∧
      ∀ i, (l.foldl (fun s layerID =>
          if layerID ∈ live then s else deleteLayerFromCache s layerID) st).graph i =
        (if i ∈ (l.filter (fun k => decide (k ∉ live))).toFinset then ∅
         else if i ∈ st.graphDom then
           st.graph i \ (l.filter (fun k => decide (k ∉ live))).toFinset
         else st.graph i) := by
  intro l
  induction l with
  | nil => intro st; simp
  | cons k rest ih =>
    intro st
    by_cases hk : k ∈ live
    · simpa [List.foldl_cons, hk] using ih st
    · have hfil : ((k :: rest).filter (fun k => decide (k ∉ live))).toFinset =
          insert k ((rest.filter (fun k => decide (k ∉ live))).toFinset) := by
        simp [List.filter_cons, hk]
      obtain ⟨ih1, ih2, ih3, ih4⟩ := ih (deleteLayerFromCache st k)
      refine ⟨?_, ?_, ?_, ?_⟩
      · rw [List.foldl_cons, if_neg hk, ih1, hfil]
        simp only [deleteLayerFromCache, Finset.erase_eq]
        ext x
        simp only [Finset.mem_sdiff, Finset.mem_insert, Finset.mem_singleton]
        tauto
      · rw [List.foldl_cons, if_neg hk, ih2, hfil]
        simp only [deleteLayerFromCache, Finset.erase_eq]
        ext x
        simp only [Finset.mem_sdiff, Finset.mem_insert, Finset.mem_singleton]
        tauto
      · rw [List.foldl_cons, if_neg hk, ih3]
        simp [deleteLayerFromCache]
      · intro i
        rw [List.foldl_cons, if_neg hk, ih4 i, hfil]
        by_cases hiR : i ∈ (rest.filter (fun k => decide (k ∉ live))).toFinset
        · rw [if_pos hiR, if_pos (Finset.mem_insert_of_mem hiR)]
        · rw [if_neg hiR]
          by_cases hik : i = k
          · subst hik
            rw [if_pos (Finset.mem_insert_self _ _)]
            have : i ∉ (deleteLayerFromCache st i).graphDom := by
              simp [deleteLayerFromCache]
            rw [if_neg this]
            simp [deleteLayerFromCache]
          · have hins : i ∉ insert k ((rest.filter (fun k => decide (k ∉ live))).toFinset) := by
              simp only [Finset.mem_insert, not_or]
              exact ⟨hik, hiR⟩
            rw [if_neg hins]
            by_cases hidom : i ∈ st.graphDom
            · have : i ∈ (deleteLayerFromCache st k).graphDom := by
                simp [deleteLayerFromCache, Finset.mem_erase, hik, hidom]
              rw [if_pos this, if_pos hidom]
              simp only [deleteLayerFromCache, if_neg hik, if_pos hidom]
              ext x
              simp only [Finset.mem_sdiff, Finset.mem_insert, Finset.mem_erase,
                Finset.mem_singleton]
              tauto
            · have : i ∉ (deleteLayerFromCache st k).graphDom := by
                simp [deleteLayerFromCache, Finset.mem_erase, hidom]
              rw [if_neg this, if_neg hidom]
              simp [deleteLayerFromCache, hik, hidom]

/-- Net effect of `deleteFromAreaCache`: exactly the dead keyed ids are
purged everywhere. -/
theorem deleteFromAreaCache_spec (live : Finset Nat) (st : ClusterState) :
    (deleteFromAreaCache live st).graphDom = st.graphDom.filter (· ∈ live) ∧
    (deleteFromAreaCache live st).cache.dom =
      st.cache.dom \ (st.graphDom.filter (· ∉ live)) ∧
    (deleteFromAreaCache live st).cache.val = st.cache.val ∧
    ∀ i, (deleteFromAreaCache live st).graph i =
      (if i ∈ st.graphDom.filter (· ∉ live) then ∅
       else if i ∈ st.graphDom then st.graph i \ (st.graphDom.filter (· ∉ live))
       else st.graph i) := by
  have hset : ((sortAsc st.graphDom).filter (fun k => decide (k ∉ live))).toFinset =
      st.graphDom.filter (· ∉ live) := by
    ext x
    simp [List.mem_filter, mem_sortAsc, Finset.mem_filter]
  obtain ⟨h1, h2, h3, h4⟩ := gcFold_spec live (sortAsc st.graphDom) st
  rw [deleteFromAreaCache]
  rw [hset] at h1 h2
  refine ⟨?_, h2, h3, ?_⟩
  · rw [h1]
    ext x
    simp only [Finset.mem_sdiff, Finset.mem_filter]
    tauto
  · intro i
    rw [h4 i, hset]


/-! ## The incremental edge diff -/

/-- Description of `updateLayerGraph` with `del = true`: the cache is
untouched, the updated id's recorded set becomes exactly `conn`, dropped
edges lose their back-reference, created edges gain one, and everything
else is untouched. -/
theorem updateLayerGraph_spec (st : ClusterState) (layerID : Nat) (conn : Finset Nat) :
    (updateLayerGraph st layerID conn true).cache = st.cache ∧
    (updateLayerGraph st layerID conn true).graphDom =
      insert layerID st.graphDom ∪ (conn \ prevSet st layerID) ∧
    ∀ i, (updateLayerGraph st layerID conn true).graph i =
      (if i = layerID then conn
       else if i ∈ conn \ prevSet st layerID then
         (if i ∈ st.graphDom then insert layerID (st.graph i) else {layerID})
       else if i ∈ prevSet st layerID \ conn then (st.graph i).erase layerID
       else st.graph i) := by
  refine ⟨?_, ?_, ?_⟩
  · by_cases hdom : layerID ∈ st.graphDom <;> simp [updateLayerGraph, hdom]
  · by_cases hdom : layerID ∈ st.graphDom <;>
      simp [updateLayerGraph, hdom, prevSet]
  · intro i
    by_cases hdom : layerID ∈ st.graphDom <;>
      simp only [updateLayerGraph, hdom, prevSet, if_true, if_false, ite_true, ite_false,
        Function.update] <;>
      split_ifs <;>
      first
      | rfl
      | (ext x
         simp_all [Finset.mem_union, Finset.mem_sdiff, Finset.mem_insert,
           Finset.mem_erase, Finset.mem_singleton, eq_rec_constant]
         try tauto)

/-! ## Invariant preservation: well-formedness and symmetry -/

/-- Membership in the graph after `deleteLayerFromCache` on a well-formed
state: exactly the old edges not touching the purged id survive. -/
theorem mem_deleteLayerFromCache_graph (st : ClusterState) (k : Nat)
    (hwf1 : ∀ i, i ∉ st.graphDom → st.graph i = ∅) (a b : Nat) :
    a ∈ (deleteLayerFromCache st k).graph b ↔
      (a ∈ st.graph b ∧ a ≠ k ∧ b ≠ k) := by
  simp only [deleteLayerFromCache]
  by_cases hb : b = k
  · subst hb; simp
  · rw [if_neg hb]
    by_cases hbd : b ∈ st.graphDom
    · rw [if_pos hbd]
      simp only [Finset.mem_erase]
      tauto
    · rw [if_neg hbd, hwf1 b hbd]
      simp

/-- `deleteLayerFromCache` preserves well-formedness and symmetry. -/
theorem wf_symm_deleteLayerFromCache (st : ClusterState) (k : Nat)
    (hwf : WF st) (hsymm : Symm st) :
    WF (deleteLayerFromCache st k) ∧ Symm (deleteLayerFromCache st k) := by
  obtain ⟨h1, h2, h3⟩ := hwf
  refine ⟨⟨?_, ?_, ?_⟩, ?_⟩
  · intro i hi
    simp only [deleteLayerFromCache] at hi ⊢
    by_cases hik : i = k
    · rw [if_pos hik]
    · rw [if_neg hik]
      have hid : i ∉ st.graphDom := fun h => hi (Finset.mem_erase.mpr ⟨hik, h⟩)
      rw [if_neg hid]
      exact h1 i hid
  · intro i
    intro j hj
    rw [mem_deleteLayerFromCache_graph st k h1 j i] at hj
    simp only [deleteLayerFromCache, Finset.mem_erase]
    exact ⟨hj.2.1, h2 i hj.1⟩
  · simp only [deleteLayerFromCache]
    intro j hj
    rw [Finset.mem_erase] at hj ⊢
    exact ⟨hj.1, h3 hj.2⟩
  · intro a b
    rw [mem_deleteLayerFromCache_graph st k h1 a b,
      mem_deleteLayerFromCache_graph st k h1 b a, hsymm a b]
    tauto

/-- The garbage-collection pass preserves well-formedness and symmetry. -/
theorem wf_symm_deleteFromAreaCache (live : Finset Nat) (st : ClusterState)
    (hwf : WF st) (hsymm : Symm st) :
    WF (deleteFromAreaCache live st) ∧ Symm (deleteFromAreaCache live st) := by
  rw [deleteFromAreaCache]
  generalize sortAsc st.graphDom = l
  induction l generalizing st with
  | nil => exact ⟨hwf, hsymm⟩
  | cons k rest ih =>
    rw [List.foldl_cons]
    by_cases hk : k ∈ live
    · rw [if_pos hk]; exact ih st hwf hsymm
    · rw [if_neg hk]
      obtain ⟨hwf2, hsymm2⟩ := wf_symm_deleteLayerFromCache st k hwf hsymm
      exact ih _ hwf2 hsymm2

/-- On a well-formed state the recorded previous neighbor set is just the
stored set. -/
theorem prevSet_eq (st : ClusterState) (layerID : Nat)
    (hwf1 : ∀ i, i ∉ st.graphDom → st.graph i = ∅) :
    prevSet st layerID = st.graph layerID := by
  rw [prevSet]
  by_cases h : layerID ∈ st.graphDom
  · rw [if_pos h]
  · rw [if_neg h, hwf1 _ h]

/-- `updateLayerGraph` with `del = true` preserves well-formedness and
symmetry. -/
theorem wf_symm_updateLayerGraph (st : ClusterState) (layerID : Nat)
    (conn : Finset Nat) (hwf : WF st) (hsymm : Symm st) :
    WF (updateLayerGraph st layerID conn true) ∧
      Symm (updateLayerGraph st layerID conn true) := by
  obtain ⟨h1, h2, h3⟩ := hwf
  obtain ⟨hc, hd, hg⟩ := updateLayerGraph_spec st layerID conn
  have hPrev := prevSet_eq st layerID h1
  have hIns : ∀ i, (if i ∈ st.graphDom then insert layerID (st.graph i)
      else ({layerID} : Finset Nat)) = insert layerID (st.graph i) := by
    intro i
    by_cases h : i ∈ st.graphDom
    · rw [if_pos h]
    · rw [if_neg h, h1 _ h]
      simp
  have hPsub : st.graph layerID ⊆ st.graphDom := h2 layerID
  refine ⟨⟨?_, ?_, ?_⟩, ?_⟩
  · intro i hi
    rw [hd] at hi
    simp only [Finset.mem_union, Finset.mem_insert, not_or] at hi
    obtain ⟨⟨hil, hid⟩, hic⟩ := hi
    rw [hg i, hPrev, if_neg hil, if_neg (by rw [← hPrev]; exact hic)]
    rw [if_neg (fun hmem => hid (hPsub (Finset.mem_sdiff.mp hmem).1))]
    exact h1 i hid
  · intro i
    rw [hg i, hd, hPrev]
    by_cases hi : i = layerID
    · intro j hj
      rw [if_pos hi] at hj
      by_cases hjP : j ∈ st.graph layerID
      · exact Finset.mem_union_left _ (Finset.mem_insert_of_mem (h2 layerID hjP))
      · exact Finset.mem_union_right _ (Finset.mem_sdiff.mpr ⟨hj, hjP⟩)
    · rw [if_neg hi]
      by_cases hiC : i ∈ conn \ st.graph layerID
      · rw [if_pos hiC, hIns i]
        intro j hj
        rcases Finset.mem_insert.mp hj with rfl | hj
        · exact Finset.mem_union_left _ (Finset.mem_insert_self _ _)
        · exact Finset.mem_union_left _ (Finset.mem_insert_of_mem (h2 i hj))
      · rw [if_neg hiC]
        by_cases hiD : i ∈ st.graph layerID \ conn
        · rw [if_pos hiD]
          intro j hj
          exact Finset.mem_union_left _
            (Finset.mem_insert_of_mem (h2 i (Finset.mem_of_mem_erase hj)))
        · rw [if_neg hiD]
          intro j hj
          exact Finset.mem_union_left _ (Finset.mem_insert_of_mem (h2 i hj))
  · rw [hd]
    have : (updateLayerGraph st layerID conn true).cache = st.cache := hc
    rw [this]
    intro j hj
    exact Finset.mem_union_left _ (Finset.mem_insert_of_mem (h3 hj))
  · intro a b
    rw [hg a, hg b, hPrev, hIns a, hIns b]
    have hab := hsymm a b
    have hal := hsymm a layerID
    have hbl := hsymm b layerID
    split_ifs <;>
      simp_all [Finset.mem_sdiff, Finset.mem_insert, Finset.mem_erase] <;>
      tauto


/-- `getAreaFromCache` can only add the requested id to the cache key set. -/
theorem getAreaFromCache_dom (areaOf : Nat → Option ℚ) (c : AreaCache) (x : Nat) :
    c.dom ⊆ (getAreaFromCache areaOf c x).1.dom ∧
    (getAreaFromCache areaOf c x).1.dom ⊆ insert x c.dom := by
  rw [getAreaFromCache]
  by_cases hx : x ∈ c.dom
  · rw [if_pos hx]
    exact ⟨subset_rfl, Finset.subset_insert _ _⟩
  · rw [if_neg hx]
    cases areaOf x with
    | none => exact ⟨subset_rfl, Finset.subset_insert _ _⟩
    | some a => exact ⟨Finset.subset_insert _ _, subset_rfl⟩

/-- The traversal only ever caches ids drawn from `D`, a set closed under
the graph's successor sets and containing the start id. -/
theorem recTotalArea_cacheDom (areaOf : Nat → Option ℚ) (graph : Nat → Finset Nat)
    (D : Finset Nat) (hG : ∀ i, graph i ⊆ D) :
    ∀ fuel : Nat,
      (∀ x c vis, x ∈ D →
        (recursiveGetTotalArea areaOf graph fuel x c vis).1.dom ⊆ c.dom ∪ D) ∧
      (∀ l acc c vis, (∀ y ∈ l, y ∈ D) →
        (recTotalAreaLoop areaOf graph fuel l acc c vis).1.dom ⊆ c.dom ∪ D) := by
  intro fuel
  induction fuel with
  | zero =>
    constructor
    · intro x c vis hx
      rw [recursiveGetTotalArea]
      exact Finset.subset_union_left
    · intro l acc c vis hl
      rw [recTotalAreaLoop]
      exact Finset.subset_union_left
  | succ n ih =>
    have hstep : ∀ (c : AreaCache) (x : Nat), x ∈ D →
        ∀ s : Finset Nat, s ⊆ (getAreaFromCache areaOf c x).1.dom ∪ D →
          s ⊆ c.dom ∪ D := by
      intro c x hx s hs
      intro j hj
      rcases Finset.mem_union.mp (hs hj) with hj2 | hj2
      · rcases Finset.mem_insert.mp ((getAreaFromCache_dom areaOf c x).2 hj2) with rfl | hj3
        · exact Finset.mem_union_right _ hx
        · exact Finset.mem_union_left _ hj3
      · exact Finset.mem_union_right _ hj2
    constructor
    · intro x c vis hx
      rw [recursiveGetTotalArea]
      by_cases hv : x ∈ vis
      · rw [if_pos hv]
        exact Finset.subset_union_left
      · rw [if_neg hv]
        simp only
        cases hac : (getAreaFromCache areaOf c x).2 with
        | error e =>
          simp only [hac]
          intro j hj
          rcases Finset.mem_insert.mp ((getAreaFromCache_dom areaOf c x).2 hj) with rfl | hj2
          · exact Finset.mem_union_right _ hx
          · exact Finset.mem_union_left _ hj2
        | ok a =>
          simp only [hac]
          refine hstep c x hx _ ?_
          exact ih.2 _ _ _ _ (fun y hy => hG x ((mem_sortAsc _ _).mp hy))
    · intro l acc c vis hl
      cases l with
      | nil =>
        rw [recTotalAreaLoop]
        exact Finset.subset_union_left
      | cons y ys =>
        rw [recTotalAreaLoop]
        cases hr : (recursiveGetTotalArea areaOf graph n y c vis).2.2 with
        | error e =>
          simp only [hr]
          exact ih.1 y c vis (hl y (List.mem_cons_self y ys))
        | ok t =>
          simp only [hr]
          intro j hj
          have step1 := ih.2 ys (acc + t) (recursiveGetTotalArea areaOf graph n y c vis).1
            (recursiveGetTotalArea areaOf graph n y c vis).2.1
            (fun z hz => hl z (List.mem_cons_of_mem _ hz))
          rcases Finset.mem_union.mp (step1 hj) with hj2 | hj2
          · exact ih.1 y c vis (hl y (List.mem_cons_self y ys)) hj2
          · exact Finset.mem_union_right _ hj2

/-- Neighbor discovery only collects live ids. -/
theorem getOverlappingLayerIds_subset_live (ovl : Geom → Geom → Bool)
    (bufOf : GeoJSON → Geom) (E : LayerObj) (layerGroup : List LayerObj)
    (S : Finset Nat) (h : getOverlappingLayerIds ovl bufOf E layerGroup = .ok S) :
    S ⊆ liveIds layerGroup := by
  intro x hx
  rcases (overlapLoop_ok_iff ovl (bufOf E.geo) E.leafletId layerGroup ∅ S h x).mp hx with
    hx2 | ⟨o, ho, hoid, -⟩
  · exact absurd hx2 (Finset.not_mem_empty x)
  · rw [liveIds, List.mem_toFinset]
    exact hoid ▸ List.mem_map_of_mem LayerObj.leafletId ho

/-- One `fastOverlap` evaluation preserves well-formedness and symmetry. -/
theorem wf_symm_evalStep (st : ClusterState) (inp : EvalInput)
    (hwf : WF st) (hsymm : Symm st) :
    WF (evalStep st inp) ∧ Symm (evalStep st inp) := by
  rw [evalStep, fastOverlapEval]
  simp only
  rw [fastOverlapTotal]
  obtain ⟨hwf1, hsymm1⟩ :=
    wf_symm_deleteFromAreaCache (liveIds inp.layerGroup) st hwf hsymm
  cases hN : getOverlappingLayerIds inp.ovl inp.bufOf inp.entityLayer inp.layerGroup with
  | error e =>
    simp only [hN]
    exact ⟨hwf1, hsymm1⟩
  | ok N =>
    simp only [hN]
    obtain ⟨hwf2, hsymm2⟩ := wf_symm_updateLayerGraph
      (deleteFromAreaCache (liveIds inp.layerGroup) st) inp.entityLayer.leafletId N
      hwf1 hsymm1
    obtain ⟨-, hd2, -⟩ := updateLayerGraph_spec
      (deleteFromAreaCache (liveIds inp.layerGroup) st) inp.entityLayer.leafletId N
    have hself : inp.entityLayer.leafletId ∈
        (updateLayerGraph (deleteFromAreaCache (liveIds inp.layerGroup) st)
          inp.entityLayer.leafletId N true).graphDom := by
      rw [hd2]
      exact Finset.mem_union_left _ (Finset.mem_insert_self _ _)
    have hcache := recTotalArea_cacheDom (areaOfGroup inp.areaFn inp.layerGroup)
      (updateLayerGraph (deleteFromAreaCache (liveIds inp.layerGroup) st)
        inp.entityLayer.leafletId N true).graph
      (updateLayerGraph (deleteFromAreaCache (liveIds inp.layerGroup) st)
        inp.entityLayer.leafletId N true).graphDom hwf2.2.1 inp.fuel
    have hbound := hcache.1 inp.entityLayer.leafletId
      (updateLayerGraph (deleteFromAreaCache (liveIds inp.layerGroup) st)
        inp.entityLayer.leafletId N true).cache ∅ hself
    have hfinal : ∀ c' : AreaCache,
        c'.dom ⊆ (updateLayerGraph (deleteFromAreaCache (liveIds inp.layerGroup) st)
          inp.entityLayer.leafletId N true).graphDom →
        WF { updateLayerGraph (deleteFromAreaCache (liveIds inp.layerGroup) st)
              inp.entityLayer.leafletId N true with cache := c' } ∧
        Symm { updateLayerGraph (deleteFromAreaCache (liveIds inp.layerGroup) st)
              inp.entityLayer.leafletId N true with cache := c' } := by
      intro c' hc'
      exact ⟨⟨hwf2.1, hwf2.2.1, hc'⟩, hsymm2⟩
    have hsub : ((recursiveGetTotalArea (areaOfGroup inp.areaFn inp.layerGroup)
        (updateLayerGraph (deleteFromAreaCache (liveIds inp.layerGroup) st)
          inp.entityLayer.leafletId N true).graph inp.fuel inp.entityLayer.leafletId
        (updateLayerGraph (deleteFromAreaCache (liveIds inp.layerGroup) st)
          inp.entityLayer.leafletId N true).cache ∅).1).dom ⊆
        (updateLayerGraph (deleteFromAreaCache (liveIds inp.layerGroup) st)
          inp.entityLayer.leafletId N true).graphDom := by
      intro j hj
      rcases Finset.mem_union.mp (hbound hj) with hj2 | hj2
      · exact hwf2.2.2 hj2
      · exact hj2
    cases hr : (recursiveGetTotalArea (areaOfGroup inp.areaFn inp.layerGroup)
        (updateLayerGraph (deleteFromAreaCache (liveIds inp.layerGroup) st)
          inp.entityLayer.leafletId N true).graph inp.fuel inp.entityLayer.leafletId
        (updateLayerGraph (deleteFromAreaCache (liveIds inp.layerGroup) st)
          inp.entityLayer.leafletId N true).cache ∅).2.2 with
    | error e =>
      simp only [hr]
      exact hfinal _ hsub
    | ok t =>
      simp only [hr]
      exact hfinal _ hsub

/-- The empty initial state is well-formed. -/
theorem wf_emptyState : WF emptyState := by
  refine ⟨fun i _ => rfl, fun i => ?_, ?_⟩ <;> simp [emptyState]

/-- The empty initial state is symmetric. -/
theorem symm_emptyState : Symm emptyState := by
  intro a b
  simp [emptyState]

/-- Any evaluation sequence from a well-formed symmetric state lands in a
well-formed symmetric state. -/
theorem wf_symm_runEvals (l : List EvalInput) :
    ∀ st, WF st → Symm st → WF (runEvals l st) ∧ Symm (runEvals l st) := by
  induction l with
  | nil => intro st h1 h2; exact ⟨h1, h2⟩
  | cons i rest ih =>
    intro st h1 h2
    rw [runEvals, List.foldl_cons]
    obtain ⟨h1x, h2x⟩ := wf_symm_evalStep st i h1 h2
    exact ih (evalStep st i) h1x h2x

/-! ## Claim C2: graph symmetry -/

/-- **C2.** After any sequence of cluster-rule evaluations from the
program's initial empty module state — each evaluation performing its
garbage-collection purge, incremental edge removals and edge additions —
the overlap graph is symmetric: `a ∈ graph[b] ⇔ b ∈ graph[a]`. -/
theorem c2_graph_symmetric (l : List EvalInput) : Symm (runEvals l emptyState) :=
  (wf_symm_runEvals l emptyState wf_emptyState symm_emptyState).2


/-! ## Claim C5: garbage collection fully purges removed ids -/

/-- **C5.** For every id `X` no longer present in the entity collection,
after any cluster evaluation of a live entity runs on a well-formed
symmetric module state (the evaluation performs the garbage-collection
pass first), `X` has no area-cache entry, no overlap-graph entry, and
appears in no remaining id's neighbor set — whether or not the evaluation
completed without throwing. -/
theorem c5_gc_purges_removed_id (ovl : Geom → Geom → Bool) (bufOf : GeoJSON → Geom)
    (areaFn : GeoJSON → ℚ) (layerGroup : List LayerObj) (E : LayerObj) (fuel : Nat)
    (st : ClusterState) (X : Nat) (hwf : WF st) (hsymm : Symm st)
    (hX : X ∉ liveIds layerGroup) (hE : E.leafletId ∈ liveIds layerGroup) :
    X ∉ ((fastOverlapEval ovl bufOf areaFn layerGroup E fuel st).1).cache.dom ∧
    X ∉ ((fastOverlapEval ovl bufOf areaFn layerGroup E fuel st).1).graphDom ∧
    ∀ i, X ∉ ((fastOverlapEval ovl bufOf areaFn layerGroup E fuel st).1).graph i := by
  have hXE : X ≠ E.leafletId := fun h => hX (h ▸ hE)
  obtain ⟨g1, g2, g3, g4⟩ := deleteFromAreaCache_spec (liveIds layerGroup) st
  obtain ⟨hwf1, hsymm1⟩ := wf_symm_deleteFromAreaCache (liveIds layerGroup) st hwf hsymm
  -- X is fully purged from the post-GC state
  have hgc_dom : X ∉ (deleteFromAreaCache (liveIds layerGroup) st).graphDom := by
    rw [g1, Finset.mem_filter]
    rintro ⟨-, h⟩
    exact hX h
  have hgc_cache : X ∉ (deleteFromAreaCache (liveIds layerGroup) st).cache.dom := by
    rw [g2, Finset.mem_sdiff]
    rintro ⟨hc, hnd⟩
    exact hnd (Finset.mem_filter.mpr ⟨hwf.2.2 hc, hX⟩)
  have hgc_graph : ∀ i, X ∉ (deleteFromAreaCache (liveIds layerGroup) st).graph i := by
    intro i
    rw [g4 i]
    by_cases h1 : i ∈ st.graphDom.filter (· ∉ liveIds layerGroup)
    · rw [if_pos h1]; exact Finset.not_mem_empty X
    · rw [if_neg h1]
      by_cases h2 : i ∈ st.graphDom
      · rw [if_pos h2, Finset.mem_sdiff]
        rintro ⟨hmem, hnd⟩
        exact hnd (Finset.mem_filter.mpr ⟨hwf.2.1 i hmem, hX⟩)
      · rw [if_neg h2, hwf.1 i h2]
        exact Finset.not_mem_empty X
  rw [fastOverlapEval]
  simp only
  rw [fastOverlapTotal]
  cases hN : getOverlappingLayerIds ovl bufOf E layerGroup with
  | error e =>
    simp only [hN]
    exact ⟨hgc_cache, hgc_dom, hgc_graph⟩
  | ok N =>
    simp only [hN]
    have hNlive : N ⊆ liveIds layerGroup :=
      getOverlappingLayerIds_subset_live ovl bufOf E layerGroup N hN
    have hXN : X ∉ N := fun h => hX (hNlive h)
    obtain ⟨u1, u2, u3⟩ := updateLayerGraph_spec
      (deleteFromAreaCache (liveIds layerGroup) st) E.leafletId N
    obtain ⟨hwf2, hsymm2⟩ := wf_symm_updateLayerGraph
      (deleteFromAreaCache (liveIds layerGroup) st) E.leafletId N hwf1 hsymm1
    have hupd_dom : X ∉ (updateLayerGraph (deleteFromAreaCache (liveIds layerGroup) st)
        E.leafletId N true).graphDom := by
      rw [u2]
      simp only [Finset.mem_union, Finset.mem_insert, Finset.mem_sdiff, not_or]
      exact ⟨⟨hXE, hgc_dom⟩, fun h => hXN h.1⟩
    have hupd_graph : ∀ i, X ∉ (updateLayerGraph (deleteFromAreaCache
        (liveIds layerGroup) st) E.leafletId N true).graph i := by
      intro i
      rw [u3 i]
      by_cases hi : i = E.leafletId
      · rw [if_pos hi]; exact hXN
      · rw [if_neg hi]
        by_cases hiC : i ∈ N \ prevSet (deleteFromAreaCache (liveIds layerGroup) st)
            E.leafletId
        · rw [if_pos hiC]
          by_cases hid : i ∈ (deleteFromAreaCache (liveIds layerGroup) st).graphDom
          · rw [if_pos hid]
            intro hmem
            rcases Finset.mem_insert.mp hmem with h | h
            · exact hXE h
            · exact hgc_graph i h
          · rw [if_neg hid]
            intro hmem
            exact hXE (Finset.mem_singleton.mp hmem)
        · rw [if_neg hiC]
          by_cases hiD : i ∈ prevSet (deleteFromAreaCache (liveIds layerGroup) st)
              E.leafletId \ N
          · rw [if_pos hiD]
            intro hmem
            exact hgc_graph i (Finset.mem_of_mem_erase hmem)
          · rw [if_neg hiD]
            exact hgc_graph i
    have hupd_cache : X ∉ (updateLayerGraph (deleteFromAreaCache
        (liveIds layerGroup) st) E.leafletId N true).cache.dom := by
      rw [u1]
      exact hgc_cache
    have hself : E.leafletId ∈ (updateLayerGraph (deleteFromAreaCache
        (liveIds layerGroup) st) E.leafletId N true).graphDom := by
      rw [u2]
      exact Finset.mem_union_left _ (Finset.mem_insert_self _ _)
    have hbound := (recTotalArea_cacheDom (areaOfGroup areaFn layerGroup)
      (updateLayerGraph (deleteFromAreaCache (liveIds layerGroup) st)
        E.leafletId N true).graph
      (updateLayerGraph (deleteFromAreaCache (liveIds layerGroup) st)
        E.leafletId N true).graphDom hwf2.2.1 fuel).1 E.leafletId
      (updateLayerGraph (deleteFromAreaCache (liveIds layerGroup) st)
        E.leafletId N true).cache ∅ hself
    have hXr : X ∉ ((recursiveGetTotalArea (areaOfGroup areaFn layerGroup)
        (updateLayerGraph (deleteFromAreaCache (liveIds layerGroup) st)
          E.leafletId N true).graph fuel E.leafletId
        (updateLayerGraph (deleteFromAreaCache (liveIds layerGroup) st)
          E.leafletId N true).cache ∅).1).dom := by
      intro h
      rcases Finset.mem_union.mp (hbound h) with h2 | h2
      · exact hupd_cache h2
      · exact hupd_dom h2
    cases hr : (recursiveGetTotalArea (areaOfGroup areaFn layerGroup)
        (updateLayerGraph (deleteFromAreaCache (liveIds layerGroup) st)
          E.leafletId N true).graph fuel E.leafletId
        (updateLayerGraph (deleteFromAreaCache (liveIds layerGroup) st)
          E.leafletId N true).cache ∅).2.2 with
    | error e =>
      simp only [hr]
      exact ⟨hXr, hupd_dom, hupd_graph⟩
    | ok t =>
      simp only [hr]
      exact ⟨hXr, hupd_dom, hupd_graph⟩

/-- Witness for C5: id 9 is keyed in the graph but absent from the
snapshot; evaluating live layer 1 purges it everywhere. -/
theorem c5_gc_purges_removed_id_witness :
    9 ∉ ((fastOverlapEval exOvlPair exBuf exAreaPair [exL1] exL1 10
        ⟨{9}, fun _ => ∅, ⟨∅, fun _ => 0⟩⟩).1).cache.dom ∧
    9 ∉ ((fastOverlapEval exOvlPair exBuf exAreaPair [exL1] exL1 10
        ⟨{9}, fun _ => ∅, ⟨∅, fun _ => 0⟩⟩).1).graphDom ∧
    ∀ i, 9 ∉ ((fastOverlapEval exOvlPair exBuf exAreaPair [exL1] exL1 10
        ⟨{9}, fun _ => ∅, ⟨∅, fun _ => 0⟩⟩).1).graph i :=
  c5_gc_purges_removed_id exOvlPair exBuf exAreaPair [exL1] exL1 10
    ⟨{9}, fun _ => ∅, ⟨∅, fun _ => 0⟩⟩ 9
    ⟨fun _ _ => rfl, fun _ => Finset.empty_subset _, Finset.empty_subset _⟩
    (fun a b => by simp) (by decide) (by decide)

/-! ## Claim C6: the edge diff equals wholesale replacement -/

/-- Inserting an element absorbs a prior erase of it. -/
theorem insert_erase_absorb (a : Nat) (s : Finset Nat) :
    insert a (s.erase a) = insert a s := by
  ext x
  simp only [Finset.mem_insert, Finset.mem_erase]
  tauto

/-- **C6.** On a well-formed symmetric module state (as maintained between
evaluations), applying the incremental edge diff for entity `E` with new
neighbor set `N2` — removing the dropped edges symmetrically and adding
the new ones symmetrically — produces exactly the same state as discarding
all of `E`'s edges and inserting `N2` fresh: the diff is an optimization
with an identical outcome. -/
theorem c6_diff_equals_wholesale (st : ClusterState) (layerID : Nat) (N2 : Finset Nat)
    (hwf : WF st) (hsymm : Symm st) :
    updateLayerGraph st layerID N2 true = wholesaleReplace st layerID N2 := by
  obtain ⟨hc, hd, hg⟩ := updateLayerGraph_spec st layerID N2
  have hPrev := prevSet_eq st layerID hwf.1
  refine ClusterState.ext ?_ ?_ ?_
  · rw [hd, hPrev, wholesaleReplace]
    ext x
    simp only [Finset.mem_union, Finset.mem_insert, Finset.mem_sdiff]
    constructor
    · tauto
    · rintro (h | h)
      · tauto
      · by_cases hx : x ∈ st.graph layerID
        · exact Or.inl (Or.inr (hwf.2.1 layerID hx))
        · tauto
  · funext i
    rw [hg i, hPrev, wholesaleReplace]
    simp only
    by_cases hi : i = layerID
    · rw [if_pos hi, if_pos hi]
    · rw [if_neg hi, if_neg hi]
      by_cases hiN : i ∈ N2
      · rw [if_pos hiN]
        by_cases hiP : i ∈ st.graph layerID
        · have hmem : layerID ∈ st.graph i := (hsymm i layerID).mp hiP
          rw [if_neg (fun h => (Finset.mem_sdiff.mp h).2 hiP),
            if_neg (fun h => (Finset.mem_sdiff.mp h).2 hiN),
            Finset.insert_erase hmem]
        · rw [if_pos (Finset.mem_sdiff.mpr ⟨hiN, hiP⟩), insert_erase_absorb]
          by_cases hid : i ∈ st.graphDom
          · rw [if_pos hid]
          · rw [if_neg hid, hwf.1 i hid]
            simp
      · rw [if_neg hiN]
        by_cases hiP : i ∈ st.graph layerID
        · rw [if_neg (fun h => (Finset.mem_sdiff.mp h).2 hiP),
            if_pos (Finset.mem_sdiff.mpr ⟨hiP, hiN⟩)]
        · rw [if_neg (fun h => hiN (Finset.mem_sdiff.mp h).1),
            if_neg (fun h => hiP (Finset.mem_sdiff.mp h).1)]
          rw [Finset.erase_eq_of_not_mem (fun h => hiP ((hsymm layerID i).mp h))]
  · rw [hc, wholesaleReplace]

/-- Witness for C6 from the initial empty state. -/
theorem c6_diff_equals_wholesale_witness :
    updateLayerGraph emptyState 1 {2} true = wholesaleReplace emptyState 1 {2} :=
  c6_diff_equals_wholesale emptyState 1 {2} wf_emptyState symm_emptyState

/-! ## Reachability of the visited-set-guarded traversal -/

/-- Membership in `NewReach`. -/
theorem mem_NewReach {succ : Nat → Finset Nat} {vis : Set Nat} {x z : Nat} :
    z ∈ NewReach succ vis x ↔
      x ∉ vis ∧ Relation.ReflTransGen (reachStep succ vis) x z :=
  Iff.rfl

/-- The start node belongs to its own new-reach set when unvisited. -/
theorem NewReach_self {succ : Nat → Finset Nat} {vis : Set Nat} {x : Nat}
    (hx : x ∉ vis) : x ∈ NewReach succ vis x :=
  ⟨hx, Relation.ReflTransGen.refl⟩

/-- New-reach sets avoid the visited set. -/
theorem NewReach_disjoint {succ : Nat → Finset Nat} {vis : Set Nat} {x z : Nat}
    (hz : z ∈ NewReach succ vis x) : z ∉ vis := by
  obtain ⟨hx, hreach⟩ := hz
  induction hreach with
  | refl => exact hx
  | tail _ hstep ih => exact hstep.2

/-- New-reach sets are closed under unvisited successor steps. -/
theorem NewReach_closed {succ : Nat → Finset Nat} {vis : Set Nat} {x a b : Nat}
    (ha : a ∈ NewReach succ vis x) (hb : b ∈ succ a) (hbv : b ∉ vis) :
    b ∈ NewReach succ vis x :=
  ⟨ha.1, ha.2.tail ⟨hb, hbv⟩⟩

/-- New-reach sets stay inside any `U` that contains the start and is
closed under the successor sets. -/
theorem NewReach_subset {succ : Nat → Finset Nat} {vis : Set Nat} {x : Nat}
    {U : Finset Nat} (hU : ∀ i, succ i ⊆ U) (hx : x ∈ U) :
    NewReach succ vis x ⊆ ↑U := by
  rintro z ⟨-, hreach⟩
  induction hreach with
  | refl => exact hx
  | tail _ hstep ih => exact hU _ hstep.1

/-- Head decomposition of a new-reach set: the start plus the new-reach
sets of its successors with the start marked visited. -/
theorem NewReach_head {succ : Nat → Finset Nat} {vis : Set Nat} {x : Nat}
    (hx : x ∉ vis) :
    NewReach succ vis x =
      {x} ∪ ⋃ y ∈ succ x, NewReach succ (vis ∪ {x}) y := by
  ext z
  simp only [Set.mem_union, Set.mem_singleton_iff, Set.mem_iUnion]
  constructor
  · rintro ⟨-, hreach⟩
    induction hreach with
    | refl => exact Or.inl rfl
    | tail hxm hstep ih =>
      rename_i b c
      rcases ih with hbx | ⟨y, hy, hyreach⟩
      · by_cases hcx : c = x
        · exact Or.inl hcx
        · exact Or.inr ⟨c, hbx ▸ hstep.1,
            NewReach_self (fun h => h.elim hstep.2 (fun h2 => hcx h2))⟩
      · by_cases hcx : c = x
        · exact Or.inl hcx
        · exact Or.inr ⟨y, hy, NewReach_closed hyreach hstep.1
            (fun h => h.elim hstep.2 (fun h2 => hcx h2))⟩
  · rintro (rfl | ⟨y, hy, hyv, hyreach⟩)
    · exact NewReach_self hx
    · refine ⟨hx, ?_⟩
      have hyvis : y ∉ vis := fun h => hyv (Or.inl h)
      have hstep0 : Relation.ReflTransGen (reachStep succ vis) x y :=
        Relation.ReflTransGen.single ⟨hy, hyvis⟩
      refine hstep0.trans ?_
      exact Relation.ReflTransGen.mono
        (fun a b hab => ⟨hab.1, fun h => hab.2 (Or.inl h)⟩) hyreach

/-- Enlarging the visited set by an already reach-closed set `A` carves
`A` out of a new-reach set. -/
theorem NewReach_union_closed {succ : Nat → Finset Nat} {vis : Set Nat}
    {A : Set Nat} (hclosed : ∀ a ∈ A, ∀ b ∈ succ a, b ∉ vis → b ∈ A)
    (y : Nat) :
    NewReach succ (vis ∪ A) y = NewReach succ vis y \ A := by
  ext z
  constructor
  · rintro ⟨hyv, hreach⟩
    have hyvis : y ∉ vis := fun h => hyv (Or.inl h)
    have hyA : y ∉ A := fun h => hyv (Or.inr h)
    have key : Relation.ReflTransGen (reachStep succ vis) y z ∧ z ∉ A := by
      refine ⟨Relation.ReflTransGen.mono
        (fun a b hab => ⟨hab.1, fun h => hab.2 (Or.inl h)⟩) hreach, ?_⟩
      clear hyv
      induction hreach with
      | refl => exact hyA
      | tail _ hstep ih => exact fun h => hstep.2 (Or.inr h)
    exact ⟨⟨hyvis, key.1⟩, key.2⟩
  · rintro ⟨⟨hyvis, hreach⟩, hzA⟩
    -- if any node on the walk were in A, closedness would put z in A
    have hyA : y ∉ A := by
      intro hyA2
      apply hzA
      clear hzA
      induction hreach with
      | refl => exact hyA2
      | tail _ hstep ih => exact hclosed _ ih _ hstep.1 hstep.2
    -- every node of the walk avoids A (else closedness would drag z into A),
    -- so the walk also avoids vis ∪ A
    have main : ∀ {m : Nat}, Relation.ReflTransGen (reachStep succ vis) y m →
        m ∉ A → Relation.ReflTransGen (reachStep succ (vis ∪ A)) y m := by
      intro m hreach2
      induction hreach2 with
      | refl => exact fun _ => Relation.ReflTransGen.refl
      | @tail w m2 hyw hstep ih =>
        intro hm2
        have hwA : w ∉ A := fun hwA2 => hm2 (hclosed _ hwA2 _ hstep.1 hstep.2)
        exact (ih hwA).tail ⟨hstep.1, fun h => h.elim hstep.2 hm2⟩
    exact ⟨fun h => h.elim hyvis hyA, main hreach hzA⟩

/-! ## Summation over newly visited nodes -/

/-- Splitting a sum over a difference along an intermediate set. -/
theorem sum_sdiff_chain (f : Nat → ℚ) {s1 s2 s3 : Finset Nat}
    (h12 : s1 ⊆ s2) (h23 : s2 ⊆ s3) :
    ∑ i ∈ s3 \ s1, f i = (∑ i ∈ s2 \ s1, f i) + ∑ i ∈ s3 \ s2, f i := by
  rw [← Finset.sum_union (by
    rw [Finset.disjoint_left]
    intro a ha hb
    exact (Finset.mem_sdiff.mp hb).2 (Finset.mem_sdiff.mp ha).1)]
  congr 1
  ext x
  have h1 := @h12 x
  have h2 := @h23 x
  simp only [Finset.mem_sdiff, Finset.mem_union]
  tauto

/-- Peeling the start node off a sum over newly visited nodes. -/
theorem sum_insert_sdiff (f : Nat → ℚ) {x : Nat} {vis vis2 : Finset Nat}
    (hx : x ∉ vis) (hsub : insert x vis ⊆ vis2) :
    ∑ i ∈ vis2 \ vis, f i = f x + ∑ i ∈ vis2 \ insert x vis, f i := by
  have hx2 : x ∈ vis2 := hsub (Finset.mem_insert_self _ _)
  have : vis2 \ vis = insert x (vis2 \ insert x vis) := by
    ext a
    simp only [Finset.mem_sdiff, Finset.mem_insert, not_or]
    constructor
    · rintro ⟨ha2, hav⟩
      by_cases hax : a = x
      · exact Or.inl hax
      · exact Or.inr ⟨ha2, hax, hav⟩
    · rintro (rfl | ⟨ha2, -, hav⟩)
      · exact ⟨hx2, hx⟩
      · exact ⟨ha2, hav⟩
  rw [this, Finset.sum_insert (by simp)]

/-- On success, `getAreaFromCache` returns the oracle's area and keeps the
cache consistent with the oracle. -/
theorem getAreaFromCache_ok (areaOf : Nat → Option ℚ) (c : AreaCache) (x : Nat)
    (c1 : AreaCache) (a : ℚ) (h : getAreaFromCache areaOf c x = (c1, .ok a))
    (hc : ∀ i ∈ c.dom, areaOf i = some (c.val i)) :
    a = (areaOf x).getD 0 ∧ (∀ i ∈ c1.dom, areaOf i = some (c1.val i)) := by
  rw [getAreaFromCache] at h
  by_cases hx : x ∈ c.dom
  · rw [if_pos hx] at h
    simp only [Prod.mk.injEq, Except.ok.injEq] at h
    obtain ⟨rfl, rfl⟩ := h
    exact ⟨by rw [hc x hx]; rfl, hc⟩
  · rw [if_neg hx] at h
    cases hof : areaOf x with
    | none => rw [hof] at h; simp at h
    | some a0 =>
      rw [hof] at h
      simp only [Prod.mk.injEq, Except.ok.injEq] at h
      obtain ⟨rfl, rfl⟩ := h
      refine ⟨rfl, ?_⟩
      intro i hi
      simp only [Finset.mem_insert] at hi
      rcases hi with rfl | hi
      · simp [hof]
      · have hix : i ≠ x := fun he => hx (he ▸ hi)
        simp [Function.update_noteq hix, hc i hi]

/-- Success-characterization of the traversal's total: the visited set only
grows, cache consistency with the oracle is preserved, and the total is
the sum of the oracle areas of the newly visited ids. -/
theorem recTotalArea_sum (areaOf : Nat → Option ℚ) (graph : Nat → Finset Nat) :
    ∀ fuel : Nat,
      (∀ x c vis c2 vis2 t,
        recursiveGetTotalArea areaOf graph fuel x c vis = (c2, vis2, .ok t) →
        (∀ i ∈ c.dom, areaOf i = some (c.val i)) →
        vis ⊆ vis2 ∧ (∀ i ∈ c2.dom, areaOf i = some (c2.val i)) ∧
        t = ∑ i ∈ vis2 \ vis, (areaOf i).getD 0) ∧
      (∀ l acc c vis c2 vis2 t,
        recTotalAreaLoop areaOf graph fuel l acc c vis = (c2, vis2, .ok t) →
        (∀ i ∈ c.dom, areaOf i = some (c.val i)) →
        vis ⊆ vis2 ∧ (∀ i ∈ c2.dom, areaOf i = some (c2.val i)) ∧
        t = acc + ∑ i ∈ vis2 \ vis, (areaOf i).getD 0) := by
  intro fuel
  induction fuel with
  | zero =>
    constructor
    · intro x c vis c2 vis2 t h hc
      rw [recursiveGetTotalArea] at h
      simp at h
    · intro l acc c vis c2 vis2 t h hc
      rw [recTotalAreaLoop] at h
      simp at h
  | succ n ih =>
    constructor
    · intro x c vis c2 vis2 t h hc
      rw [recursiveGetTotalArea] at h
      by_cases hv : x ∈ vis
      · rw [if_pos hv] at h
        simp only [Prod.mk.injEq, Except.ok.injEq] at h
        obtain ⟨rfl, rfl, rfl⟩ := h
        refine ⟨subset_rfl, hc, ?_⟩
        rw [Finset.sdiff_self]
        simp
      · rw [if_neg hv] at h
        simp only at h
        cases hac : (getAreaFromCache areaOf c x).2 with
        | error e => rw [hac] at h; simp at h
        | ok a =>
          rw [hac] at h
          obtain ⟨ha, hc1⟩ := getAreaFromCache_ok areaOf c x
            (getAreaFromCache areaOf c x).1 a (Prod.ext rfl hac) hc
          obtain ⟨hsub, hc2, ht⟩ := ih.2 _ _ _ _ _ _ _ h hc1
          have hxvis2 : insert x vis ⊆ vis2 := hsub
          refine ⟨(Finset.subset_insert x vis).trans hsub, hc2, ?_⟩
          rw [ht, ha, sum_insert_sdiff _ hv hxvis2]
    · intro l acc c vis c2 vis2 t h hc
      cases l with
      | nil =>
        rw [recTotalAreaLoop] at h
        simp only [Prod.mk.injEq, Except.ok.injEq] at h
        obtain ⟨rfl, rfl, rfl⟩ := h
        refine ⟨subset_rfl, hc, ?_⟩
        rw [Finset.sdiff_self]
        simp
      | cons y ys =>
        rw [recTotalAreaLoop] at h
        cases hr : (recursiveGetTotalArea areaOf graph n y c vis).2.2 with
        | error e => rw [hr] at h; simp at h
        | ok t1 =>
          rw [hr] at h
          obtain ⟨hsub1, hcr, ht1⟩ := ih.1 y c vis
            (recursiveGetTotalArea areaOf graph n y c vis).1
            (recursiveGetTotalArea areaOf graph n y c vis).2.1 t1
            (Prod.ext rfl (Prod.ext rfl hr)) hc
          obtain ⟨hsub2, hc2, ht⟩ := ih.2 _ _ _ _ _ _ _ h hcr
          refine ⟨hsub1.trans hsub2, hc2, ?_⟩
          rw [ht, ht1, sum_sdiff_chain _ hsub1 hsub2]
          ring


/-- When the oracle knows the id, `getAreaFromCache` succeeds. -/
theorem getAreaFromCache_isOk (areaOf : Nat → Option ℚ) (c : AreaCache) (x : Nat)
    (h : areaOf x ≠ none) : ∃ a, (getAreaFromCache areaOf c x).2 = .ok a := by
  rw [getAreaFromCache]
  by_cases hx : x ∈ c.dom
  · exact ⟨c.val x, by rw [if_pos hx]⟩
  · rw [if_neg hx]
    cases hof : areaOf x with
    | none => exact absurd hof h
    | some a => exact ⟨a, rfl⟩

/-- A big union over the enumeration of a finite set is the union over the
set. -/
theorem iUnion_sortAsc (s : Finset Nat) (F : Nat → Set Nat) :
    ⋃ y ∈ sortAsc s, F y = ⋃ y ∈ s, F y := by
  ext z
  simp only [Set.mem_iUnion]
  constructor
  · rintro ⟨y, hy, hz⟩
    exact ⟨y, (mem_sortAsc s y).mp hy, hz⟩
  · rintro ⟨y, hy, hz⟩
    exact ⟨y, (mem_sortAsc s y).mpr hy, hz⟩

/-- Dropping a newly visited node shrinks the unvisited count. -/
theorem card_sdiff_insert_lt {U vis : Finset Nat} {x : Nat} {n : Nat}
    (hx : x ∈ U) (hv : x ∉ vis) (hn : (U \ vis).card ≤ n) :
    (U \ insert x vis).card ≤ n - 1 := by
  have hmem : x ∈ U \ vis := Finset.mem_sdiff.mpr ⟨hx, hv⟩
  have heq : U \ insert x vis = (U \ vis).erase x := by
    ext a
    simp only [Finset.mem_sdiff, Finset.mem_erase, Finset.mem_insert, not_or]
    tauto
  rw [heq, Finset.card_erase_of_mem hmem]
  omega

/-- Growing the visited set cannot grow the unvisited count. -/
theorem card_sdiff_mono {U vis vis1 : Finset Nat} {n : Nat}
    (h : vis ⊆ vis1) (hn : (U \ vis).card ≤ n) : (U \ vis1).card ≤ n := by
  exact le_trans (Finset.card_le_card (Finset.sdiff_subset_sdiff subset_rfl h)) hn

/-- Fuel-sufficiency and visited-set characterization of the traversal:
from any start in a successor-closed live universe `U` and with enough
fuel, the traversal succeeds and its final visited set is the initial one
plus exactly the new-reach set of the start. The fuel bound is uniform in
the cache and accumulator. -/
theorem recTotalArea_reach (areaOf : Nat → Option ℚ) (graph : Nat → Finset Nat)
    (U : Finset Nat) (hU : ∀ i, graph i ⊆ U)
    (hArea : ∀ i ∈ U, areaOf i ≠ none) :
    ∀ n : Nat,
      (∀ x vis, x ∈ U → (U \ vis).card ≤ n →
        ∃ f, ∀ (c : AreaCache) (fuel : Nat), f ≤ fuel →
          ∃ c2 vis2 t,
            recursiveGetTotalArea areaOf graph fuel x c vis = (c2, vis2, .ok t) ∧
            ↑vis2 = ↑vis ∪ NewReach graph (↑vis) x) ∧
      (∀ l : List Nat, (∀ y ∈ l, y ∈ U) → ∀ vis, (U \ vis).card ≤ n →
        ∃ f, ∀ (acc : ℚ) (c : AreaCache) (fuel : Nat), f ≤ fuel →
          ∃ c2 vis2 t,
            recTotalAreaLoop areaOf graph fuel l acc c vis = (c2, vis2, .ok t) ∧
            ↑vis2 = ↑vis ∪ ⋃ y ∈ l, NewReach graph (↑vis) y) := by
  intro n
  induction n using Nat.strong_induction_on with
  | _ n IH =>
    have hP : ∀ x vis, x ∈ U → (U \ vis).card ≤ n →
        ∃ f, ∀ (c : AreaCache) (fuel : Nat), f ≤ fuel →
          ∃ c2 vis2 t,
            recursiveGetTotalArea areaOf graph fuel x c vis = (c2, vis2, .ok t) ∧
            ↑vis2 = ↑vis ∪ NewReach graph (↑vis) x := by
      intro x vis hx hcard
      by_cases hv : x ∈ vis
      · refine ⟨1, fun c fuel hfuel => ?_⟩
        cases fuel with
        | zero => omega
        | succ m =>
          refine ⟨c, vis, 0, ?_, ?_⟩
          · rw [recursiveGetTotalArea, if_pos hv]
          · have : NewReach graph (↑vis) x = ∅ := by
              ext z
              simp only [mem_NewReach, Set.mem_empty_iff_false, iff_false, not_and]
              intro hxv
              exact absurd hv (by exact_mod_cast hxv)
            rw [this, Set.union_empty]
      · have hx2 : x ∈ U \ vis := Finset.mem_sdiff.mpr ⟨hx, hv⟩
        have hn1 : 1 ≤ n := by
          have := Finset.card_pos.mpr ⟨x, hx2⟩
          omega
        have hQ1 := (IH (n - 1) (by omega)).2
        obtain ⟨fL, hfL⟩ := hQ1 (sortAsc (graph x))
          (fun y hy => hU x ((mem_sortAsc _ _).mp hy)) (insert x vis)
          (card_sdiff_insert_lt hx hv hcard)
        refine ⟨fL + 1, fun c fuel hfuel => ?_⟩
        cases fuel with
        | zero => omega
        | succ m =>
          rw [recursiveGetTotalArea, if_neg hv]
          obtain ⟨a, ha⟩ := getAreaFromCache_isOk areaOf c x (hArea x hx)
          simp only [ha]
          obtain ⟨c2, vis2, t, heq, hchar⟩ :=
            hfL a (getAreaFromCache areaOf c x).1 m (by omega)
          refine ⟨c2, vis2, t, heq, ?_⟩
          rw [hchar, iUnion_sortAsc,
            NewReach_head (show x ∉ (↑vis : Set Nat) from
              fun h => hv (by exact_mod_cast h)),
            Finset.coe_insert, ← Set.union_singleton, Set.union_assoc]
    refine ⟨hP, ?_⟩
    intro l
    induction l with
    | nil =>
      intro hl vis hcard
      refine ⟨1, fun acc c fuel hfuel => ?_⟩
      cases fuel with
      | zero => omega
      | succ m =>
        refine ⟨c, vis, acc, ?_, by simp⟩
        rw [recTotalAreaLoop]
    | cons y ys ihl =>
      intro hl vis hcard
      obtain ⟨f1, hf1⟩ := hP y vis (hl y (List.mem_cons_self y ys)) hcard
      obtain ⟨c20, vis1, t0, heq0, hchar0⟩ := hf1 ⟨∅, fun _ => 0⟩ f1 le_rfl
      have hvsub : vis ⊆ vis1 := by
        intro a ha
        have : (a : Nat) ∈ (↑vis1 : Set Nat) := by
          rw [hchar0]
          exact Or.inl (by exact_mod_cast ha)
        exact_mod_cast this
      obtain ⟨f2, hf2⟩ := ihl (fun z hz => hl z (List.mem_cons_of_mem _ hz)) vis1
        (card_sdiff_mono hvsub hcard)
      refine ⟨max f1 f2 + 1, fun acc c fuel hfuel => ?_⟩
      cases fuel with
      | zero => omega
      | succ m =>
        rw [recTotalAreaLoop]
        obtain ⟨c2a, vis2a, t1, heqa, hchara⟩ := hf1 c m (by omega)
        have hvis2a : vis2a = vis1 := by
          apply Finset.coe_injective
          rw [hchara, hchar0]
        have h22 : (recursiveGetTotalArea areaOf graph m y c vis).2.2 = .ok t1 := by
          rw [heqa]
        simp only [h22]
        have h1 : (recursiveGetTotalArea areaOf graph m y c vis).1 = c2a := by
          rw [heqa]
        have h21 : (recursiveGetTotalArea areaOf graph m y c vis).2.1 = vis1 := by
          rw [heqa]
          exact hvis2a
        rw [h1, h21]
        obtain ⟨c2, vis2, t, heq, hchar⟩ := hf2 (acc + t1) c2a m (by omega)
        refine ⟨c2, vis2, t, heq, ?_⟩
        rw [hchar, hchar0]
        have hclosed : ∀ a ∈ NewReach graph (↑vis) y, ∀ b ∈ graph a,
            b ∉ (↑vis : Set Nat) → b ∈ NewReach graph (↑vis) y :=
          fun a ha b hb hbv => NewReach_closed ha hb hbv
        have hsubtr : ∀ y2 : Nat,
            NewReach graph (↑vis ∪ NewReach graph (↑vis) y) y2 =
              NewReach graph (↑vis) y2 \ NewReach graph (↑vis) y :=
          fun y2 => NewReach_union_closed hclosed y2
        ext z
        simp only [Set.mem_union, Set.mem_iUnion, hsubtr, Set.mem_diff,
          List.mem_cons]
        constructor
        · rintro ((hz | hz) | ⟨y2, hy2, hz, hzA⟩)
          · exact Or.inl hz
          · exact Or.inr ⟨y, Or.inl rfl, hz⟩
          · exact Or.inr ⟨y2, Or.inr hy2, hz⟩
        · rintro (hz | ⟨y2, hy2 | hy2, hz⟩)
          · exact Or.inl (Or.inl hz)
          · exact Or.inl (Or.inr (hy2 ▸ hz))
          · by_cases hzA : z ∈ NewReach graph (↑vis) y
            · exact Or.inl (Or.inr hzA)
            · exact Or.inr ⟨y2, hy2, hz, hzA⟩


/-! ## Claim C3: cycle-safe traversal -/

/-- **C3.** On an overlap graph forming the cycle A↔B, B↔C, C↔A and for
every entry point into the cluster, the recursive cluster-area traversal
terminates for every sufficient stack budget, visits each member exactly
once (the final visited set is `{A, B, C}`), and returns exactly
`area(A) + area(B) + area(C)` — no infinite recursion and no double
counting. -/
theorem c3_cycle_traversal (A B C entry : Nat) (areaOf : Nat → Option ℚ)
    (arA arB arC : ℚ) (hAB : A ≠ B) (hAC : A ≠ C) (hBC : B ≠ C)
    (hentry : entry = A ∨ entry = B ∨ entry = C)
    (hA : areaOf A = some arA) (hB : areaOf B = some arB)
    (hC : areaOf C = some arC) :
    ∃ f, ∀ fuel, f ≤ fuel → ∃ c2,
      recursiveGetTotalArea areaOf
        (fun i => if i = A then {B, C} else if i = B then {A, C}
          else if i = C then {A, B} else ∅)
        fuel entry ⟨∅, fun _ => 0⟩ ∅ =
      (c2, ({A, B, C} : Finset Nat), .ok (arA + arB + arC)) := by
  set g : Nat → Finset Nat := fun i =>
    if i = A then {B, C} else if i = B then {A, C} else if i = C then {A, B} else ∅
    with hg
  have hBA : B ≠ A := Ne.symm hAB
  have hCA : C ≠ A := Ne.symm hAC
  have hCB : C ≠ B := Ne.symm hBC
  have hU : ∀ i, g i ⊆ ({A, B, C} : Finset Nat) := by
    intro i z hz
    simp only [hg] at hz
    by_cases h1 : i = A
    · rw [if_pos h1] at hz
      rcases Finset.mem_insert.mp hz with rfl | hz
      · simp
      · rw [Finset.mem_singleton.mp hz]; simp
    · rw [if_neg h1] at hz
      by_cases h2 : i = B
      · rw [if_pos h2] at hz
        rcases Finset.mem_insert.mp hz with rfl | hz
        · simp
        · rw [Finset.mem_singleton.mp hz]; simp
      · rw [if_neg h2] at hz
        by_cases h3 : i = C
        · rw [if_pos h3] at hz
          rcases Finset.mem_insert.mp hz with rfl | hz
          · simp
          · rw [Finset.mem_singleton.mp hz]; simp
        · rw [if_neg h3] at hz
          exact absurd hz (Finset.not_mem_empty z)
  have hmemU : ∀ i, i = A ∨ i = B ∨ i = C → i ∈ ({A, B, C} : Finset Nat) := by
    intro i hi
    simp [Finset.mem_insert, hi]
  have hArea : ∀ i ∈ ({A, B, C} : Finset Nat), areaOf i ≠ none := by
    intro i hi
    rcases Finset.mem_insert.mp hi with rfl | hi
    · rw [hA]; exact Option.some_ne_none arA
    · rcases Finset.mem_insert.mp hi with rfl | hi
      · rw [hB]; exact Option.some_ne_none arB
      · rw [Finset.mem_singleton.mp hi, hC]; exact Option.some_ne_none arC
  have htri : ∀ u v : Nat, (u = A ∨ u = B ∨ u = C) → (v = A ∨ v = B ∨ v = C) →
      u ≠ v → v ∈ g u := by
    intro u v hu hv huv
    rcases hu with rfl | rfl | rfl <;> rcases hv with rfl | rfl | rfl <;>
      simp only [hg, if_pos rfl, if_neg hBA, if_neg hCA, if_neg hCB] <;>
      simp [Finset.mem_insert] <;> tauto
  obtain ⟨f, hf⟩ := (recTotalArea_reach areaOf g ({A, B, C} : Finset Nat) hU hArea
    ({A, B, C} : Finset Nat).card).1 entry ∅ (hmemU entry hentry) (by simp)
  refine ⟨f, fun fuel hfuel => ?_⟩
  obtain ⟨c2, vis2, t, heq, hchar⟩ := hf ⟨∅, fun _ => 0⟩ fuel hfuel
  have hvis2 : vis2 = ({A, B, C} : Finset Nat) := by
    apply Finset.coe_injective
    rw [hchar]
    ext z
    simp only [Finset.coe_empty, Set.empty_union]
    constructor
    · intro hz
      exact_mod_cast NewReach_subset hU (hmemU entry hentry) hz
    · intro hz
      have hz2 : z = A ∨ z = B ∨ z = C := by
        simpa [Finset.mem_insert] using (by exact_mod_cast hz :
          z ∈ ({A, B, C} : Finset Nat))
      by_cases hze : z = entry
      · exact hze ▸ NewReach_self (Set.not_mem_empty _)
      · exact NewReach_closed (NewReach_self (Set.not_mem_empty _))
          (htri entry z hentry hz2 (fun h => hze h.symm)) (Set.not_mem_empty _)
  have hsum := ((recTotalArea_sum areaOf g fuel).1 entry ⟨∅, fun _ => 0⟩ ∅ c2 vis2 t
    heq (by intro i hi; exact absurd hi (Finset.not_mem_empty i))).2.2
  have htval : t = arA + arB + arC := by
    rw [hsum, hvis2]
    rw [Finset.sdiff_empty]
    rw [Finset.sum_insert (by simp [hAB, hAC]), Finset.sum_insert (by simp [hBC]),
      Finset.sum_singleton, hA, hB, hC]
    simp only [Option.getD_some]
    ring
  refine ⟨c2, ?_⟩
  rw [heq, hvis2, htval]

/-- Witness for C3 at the concrete triangle 1–2–3 with areas 10, 20, 30. -/
theorem c3_cycle_traversal_witness :
    ∃ f, ∀ fuel, f ≤ fuel → ∃ c2,
      recursiveGetTotalArea
        (fun i => if i = 1 then some 10 else if i = 2 then some 20
          else if i = 3 then some 30 else none)
        (fun i => if i = 1 then {2, 3} else if i = 2 then {1, 3}
          else if i = 3 then {1, 2} else ∅)
        fuel 1 ⟨∅, fun _ => 0⟩ ∅ =
      (c2, ({1, 2, 3} : Finset Nat), .ok (10 + 20 + 30)) :=
  c3_cycle_traversal 1 2 3 1
    (fun i => if i = 1 then some 10 else if i = 2 then some 20
      else if i = 3 then some 30 else none)
    10 20 30 (by decide) (by decide) (by decide) (Or.inl rfl)
    rfl (by decide) (by decide)


/-! ## Claim C1: incremental vs naive cluster totals on a synced state -/

/-- The adjacency test holds exactly when the extracted polygon exists and
overlaps the buffer. -/
theorem adjTest_iff {ovl : Geom → Geom → Bool} {bufOf : GeoJSON → Geom}
    {a b : LayerObj} :
    adjTest ovl bufOf a b = true ↔
      ∃ p, getLayerPolygon b.geo = .ok p ∧ ovl (bufOf a.geo) p = true := by
  cases hgeo : b.geo <;> simp [adjTest, getLayerPolygon, hgeo]

/-- Membership in the true neighbor set of a subject layer. -/
theorem mem_trueNbrs {ovl : Geom → Geom → Bool} {bufOf : GeoJSON → Geom}
    {lg : List LayerObj} {a : LayerObj} {x : Nat} :
    x ∈ trueNbrs ovl bufOf lg a ↔
      ∃ o ∈ lg, o.leafletId = x ∧ a.leafletId ≠ x ∧ adjTest ovl bufOf a o = true := by
  simp only [trueNbrs, List.mem_toFinset, List.mem_map, List.mem_filter,
    Bool.and_eq_true, bne_iff_ne]
  constructor
  · rintro ⟨o, ⟨ho, hne, hadj⟩, rfl⟩
    exact ⟨o, ho, rfl, hne, hadj⟩
  · rintro ⟨o, ho, rfl, hne, hadj⟩
    exact ⟨o, ⟨ho, hne, hadj⟩, rfl⟩

/-- When every group member's geometry shape is supported, neighbor
discovery cannot throw. -/
theorem overlapLoop_isOk (ovl : Geom → Geom → Bool) (buffer : Geom) (selfId : Nat) :
    ∀ (grp : List LayerObj) (acc : Finset Nat),
      (∀ o ∈ grp, o.geo ≠ GeoJSON.unsupported) →
      ∃ S, overlapLoop ovl buffer selfId grp acc = .ok S := by
  intro grp
  induction grp with
  | nil => intro acc _; exact ⟨acc, rfl⟩
  | cons o rest ih =>
    intro acc hs
    rw [overlapLoop]
    by_cases hself : selfId = o.leafletId
    · rw [if_pos hself]
      exact ih acc (fun b hb => hs b (List.mem_cons_of_mem o hb))
    · rw [if_neg hself]
      cases hpoly : getLayerPolygon o.geo with
      | error e =>
        exfalso
        have hsupp := hs o (List.mem_cons_self o rest)
        cases hgeo : o.geo
        · rw [hgeo] at hpoly; simp [getLayerPolygon] at hpoly
        · rw [hgeo] at hpoly; simp [getLayerPolygon] at hpoly
        · exact hsupp hgeo
      | ok p =>
        simp only
        exact ih _ (fun b hb => hs b (List.mem_cons_of_mem o hb))

/-- Under supported geometries, neighbor discovery returns exactly the true
neighbor set of the subject. -/
theorem getOverlappingLayerIds_supported (ovl : Geom → Geom → Bool)
    (bufOf : GeoJSON → Geom) (lg : List LayerObj)
    (hsupp : ∀ o ∈ lg, o.geo ≠ GeoJSON.unsupported) (E : LayerObj) :
    getOverlappingLayerIds ovl bufOf E lg = .ok (trueNbrs ovl bufOf lg E) := by
  obtain ⟨S, hS⟩ := overlapLoop_isOk ovl (bufOf E.geo) E.leafletId lg ∅ hsupp
  rw [getOverlappingLayerIds, hS]
  congr 1
  ext x
  rw [overlapLoop_ok_iff ovl (bufOf E.geo) E.leafletId lg ∅ S hS x, mem_trueNbrs]
  simp only [Finset.not_mem_empty, false_or]
  constructor
  · rintro ⟨o, ho, rfl, hne, p, hp, hovl⟩
    exact ⟨o, ho, rfl, hne, adjTest_iff.mpr ⟨p, hp, hovl⟩⟩
  · rintro ⟨o, ho, rfl, hne, hadj⟩
    obtain ⟨p, hp, hovl⟩ := adjTest_iff.mp hadj
    exact ⟨o, ho, rfl, hne, p, hp, hovl⟩

/-- With distinct layer ids, looking up a member's id finds the member
itself. -/
theorem getLayer_eq_of_mem : ∀ (lg : List LayerObj),
    (lg.map LayerObj.leafletId).Nodup → ∀ l ∈ lg, getLayer lg l.leafletId = some l := by
  intro lg
  induction lg with
  | nil => intro _ l hl; exact absurd hl (List.not_mem_nil l)
  | cons h t ih =>
    intro hnd l hl
    rw [List.map_cons, List.nodup_cons] at hnd
    rw [getLayer]
    rcases List.mem_cons.mp hl with rfl | hl
    · simp [List.find?_cons]
    · have hbeq : (h.leafletId == l.leafletId) = false := by
        simp only [beq_eq_false_iff_ne, ne_eq]
        intro he
        apply hnd.1
        rw [he]
        exact List.mem_map.mpr ⟨l, hl, rfl⟩
      have ht := ih hnd.2 l hl
      rw [getLayer] at ht
      simp [List.find?_cons, hbeq, ht]

/-- What a successful lookup returns: a group member carrying the id. -/
theorem getLayer_eq_some {lg : List LayerObj} {i : Nat} {l : LayerObj}
    (h : getLayer lg i = some l) : l ∈ lg ∧ l.leafletId = i := by
  rw [getLayer] at h
  refine ⟨List.mem_of_find?_eq_some h, ?_⟩
  have hp := List.find?_some h
  simpa [beq_iff_eq] using hp

/-- Membership in the live id set. -/
theorem mem_liveIds {lg : List LayerObj} {i : Nat} :
    i ∈ liveIds lg ↔ ∃ l ∈ lg, l.leafletId = i := by
  simp [liveIds, List.mem_toFinset, List.mem_map]

/-- An id the group does not carry looks up to nothing. -/
theorem getLayer_eq_none {lg : List LayerObj} {i : Nat}
    (h : i ∉ liveIds lg) : getLayer lg i = none := by
  rw [getLayer, List.find?_eq_none]
  intro x hx
  simp only [beq_iff_eq]
  intro he
  exact h (mem_liveIds.mpr ⟨x, hx, he⟩)

/-- True neighbor sets only mention live ids. -/
theorem trueNbrs_subset_live (ovl : Geom → Geom → Bool) (bufOf : GeoJSON → Geom)
    (lg : List LayerObj) (a : LayerObj) : trueNbrs ovl bufOf lg a ⊆ liveIds lg := by
  intro x hx
  obtain ⟨o, ho, rfl, -, -⟩ := mem_trueNbrs.mp hx
  exact mem_liveIds.mpr ⟨o, ho, rfl⟩

/-- The naive successor sets only mention live ids. -/
theorem naiveSucc_subset_live (ovl : Geom → Geom → Bool) (bufOf : GeoJSON → Geom)
    (lg : List LayerObj) : ∀ i, naiveSucc ovl bufOf lg i ⊆ liveIds lg := by
  intro i
  rw [naiveSucc]
  cases h : getLayer lg i with
  | none => simp
  | some l => exact trueNbrs_subset_live ovl bufOf lg l

/-- Every live id has a defined snapshot area. -/
theorem areaOfGroup_live (areaFn : GeoJSON → ℚ) (lg : List LayerObj) (i : Nat)
    (h : i ∈ liveIds lg) : areaOfGroup areaFn lg i ≠ none := by
  obtain ⟨l, hl, hid⟩ := mem_liveIds.mp h
  have hsome : (lg.find? (fun o => o.leafletId == i)).isSome :=
    List.find?_isSome.mpr ⟨l, hl, by simp [hid]⟩
  obtain ⟨x, hx⟩ := Option.isSome_iff_exists.mp hsome
  simp [areaOfGroup, getLayer, hx]

/-- On a synced state the persistent graph is exactly the naive successor
function. -/
theorem clusterSynced_graph_eq {ovl : Geom → Geom → Bool} {bufOf : GeoJSON → Geom}
    {lg : List LayerObj} {st : ClusterState}
    (hnodup : (lg.map LayerObj.leafletId).Nodup)
    (hsync : clusterSynced ovl bufOf lg st) :
    st.graph = naiveSucc ovl bufOf lg := by
  funext i
  rw [naiveSucc]
  cases h : getLayer lg i with
  | none =>
    simp only
    apply hsync.2.2
    intro hlive
    obtain ⟨l, hl, hid⟩ := mem_liveIds.mp hlive
    have hfind := getLayer_eq_of_mem lg hnodup l hl
    rw [hid, h] at hfind
    exact Option.noConfusion hfind
  | some l =>
    obtain ⟨hl, hid⟩ := getLayer_eq_some h
    simp only
    rw [← hid]
    exact hsync.2.1 l hl

/-- The garbage-collection pass is a no-op when every keyed id is live. -/
theorem deleteFromAreaCache_noop (live : Finset Nat) (st : ClusterState)
    (h : st.graphDom ⊆ live) : deleteFromAreaCache live st = st := by
  rw [deleteFromAreaCache]
  have main : ∀ l : List Nat, (∀ x ∈ l, x ∈ live) →
      l.foldl (fun s layerID =>
        if layerID ∈ live then s else deleteLayerFromCache s layerID) st = st := by
    intro l
    induction l with
    | nil => intro _; rfl
    | cons a l2 ih =>
      intro hl
      rw [List.foldl_cons]
      simp only [hl a (List.mem_cons_self a l2), if_true]
      exact ih (fun x hx => hl x (List.mem_cons_of_mem a hx))
  exact main _ (fun x hx => h ((mem_sortAsc _ _).mp hx))

/-- Re-recording an unchanged neighbor set leaves the state untouched. -/
theorem updateLayerGraph_noop (st : ClusterState) (layerID : Nat) (conn : Finset Nat)
    (hdom : layerID ∈ st.graphDom) (hconn : st.graph layerID = conn) :
    updateLayerGraph st layerID conn true = st := by
  apply ClusterState.ext
  · simp [updateLayerGraph, hdom, hconn, Finset.sdiff_self]
  · funext i
    by_cases hi : i = layerID
    · subst hi
      simp [updateLayerGraph, hdom, hconn, Finset.sdiff_self]
    · simp [updateLayerGraph, hdom, hconn, Finset.sdiff_self, hi]
  · simp [updateLayerGraph, hdom, hconn, Finset.sdiff_self]


/-- Unfolding of one naive-loop step past a supported non-self layer. -/
theorem naiveLoop_cons_step (ovl : Geom → Geom → Bool) (bufOf : GeoJSON → Geom)
    (areaFn : GeoJSON → ℚ) (lg : List LayerObj) (m : Nat) (layer other : LayerObj)
    (rest : List LayerObj) (acc : ℚ) (checked : Finset Nat) (p : Geom)
    (hid : ¬ layer.leafletId = other.leafletId)
    (hp : getLayerPolygon other.geo = .ok p) :
    naiveLoop ovl bufOf areaFn lg (m + 1) layer (other :: rest) acc checked =
      if ovl (bufOf layer.geo) p = true then
        match getTotalAreaOfOverlappingEntities ovl bufOf areaFn lg m other checked with
        | .error e => .error e
        | .ok tc => naiveLoop ovl bufOf areaFn lg m layer rest (acc + tc.1) tc.2
      else naiveLoop ovl bufOf areaFn lg m layer rest acc checked := by
  rw [naiveLoop, if_neg hid]
  cases hgeo : other.geo with
  | feature g =>
    rw [hgeo] at hp
    simp only [getLayerPolygon, Except.ok.injEq] at hp
    subst hp
    simp only [hgeo]
  | featureCollection f0 r0 =>
    rw [hgeo] at hp
    simp only [getLayerPolygon, Except.ok.injEq] at hp
    subst hp
    simp only [hgeo]
  | unsupported =>
    rw [hgeo] at hp
    simp only [getLayerPolygon] at hp
    exact absurd hp (by simp)

/-- A union of new-reach sets indexed by a list of layers, reindexed by the
carried ids. -/
theorem iUnion_NewReach_idList (succ : Nat → Finset Nat) (vis : Set Nat)
    (l : List LayerObj) :
    ⋃ o ∈ l, NewReach succ vis o.leafletId
      = ⋃ y ∈ (l.map LayerObj.leafletId).toFinset, NewReach succ vis y := by
  ext z
  simp only [Set.mem_iUnion, List.mem_toFinset, List.mem_map]
  constructor
  · rintro ⟨o, ho, hz⟩
    exact ⟨o.leafletId, ⟨o, ho, rfl⟩, hz⟩
  · rintro ⟨y, ⟨o, ho, rfl⟩, hz⟩
    exact ⟨o, ho, hz⟩

/-- Fuel-sufficiency, success, visited-set and total characterization of the
naive recursion on a snapshot with distinct ids and supported geometry
shapes: from any group member and enough fuel the recursion succeeds, the
final checked set is the initial one plus the new-reach set of the member
over the naive successor function, and the total is the sum of the snapshot
areas of the newly checked ids. -/
theorem naive_reach (ovl : Geom → Geom → Bool) (bufOf : GeoJSON → Geom)
    (areaFn : GeoJSON → ℚ) (lg : List LayerObj)
    (hnodup : (lg.map LayerObj.leafletId).Nodup)
    (hsupp : ∀ o ∈ lg, o.geo ≠ GeoJSON.unsupported) :
    ∀ n : Nat,
      (∀ (layer : LayerObj) (checked : Finset Nat), layer ∈ lg →
        (liveIds lg \ checked).card ≤ n →
        ∃ f, ∀ fuel : Nat, f ≤ fuel →
          ∃ t checked2,
            getTotalAreaOfOverlappingEntities ovl bufOf areaFn lg fuel layer checked
              = .ok (t, checked2) ∧
            ↑checked2 = ↑checked ∪
              NewReach (naiveSucc ovl bufOf lg) (↑checked) layer.leafletId ∧
            t = ∑ i ∈ checked2 \ checked, (areaOfGroup areaFn lg i).getD 0) ∧
      (∀ (layer : LayerObj) (l : List LayerObj) (checked : Finset Nat),
        (∀ o ∈ l, o ∈ lg) →
        (liveIds lg \ checked).card ≤ n →
        ∃ f, ∀ (acc : ℚ) (fuel : Nat), f ≤ fuel →
          ∃ t checked2,
            naiveLoop ovl bufOf areaFn lg fuel layer l acc checked = .ok (t, checked2) ∧
            ↑checked2 = ↑checked ∪
              ⋃ o ∈ l.filter (fun o =>
                (layer.leafletId != o.leafletId) && adjTest ovl bufOf layer o),
                NewReach (naiveSucc ovl bufOf lg) (↑checked) o.leafletId ∧
            t = acc + ∑ i ∈ checked2 \ checked, (areaOfGroup areaFn lg i).getD 0) := by
  intro n
  induction n using Nat.strong_induction_on with
  | _ n IH =>
    have hP : ∀ (layer : LayerObj) (checked : Finset Nat), layer ∈ lg →
        (liveIds lg \ checked).card ≤ n →
        ∃ f, ∀ fuel : Nat, f ≤ fuel →
          ∃ t checked2,
            getTotalAreaOfOverlappingEntities ovl bufOf areaFn lg fuel layer checked
              = .ok (t, checked2) ∧
            ↑checked2 = ↑checked ∪
              NewReach (naiveSucc ovl bufOf lg) (↑checked) layer.leafletId ∧
            t = ∑ i ∈ checked2 \ checked, (areaOfGroup areaFn lg i).getD 0 := by
      intro layer checked hlg hcard
      by_cases hv : layer.leafletId ∈ checked
      · refine ⟨1, fun fuel hfuel => ?_⟩
        cases fuel with
        | zero => omega
        | succ m =>
          refine ⟨0, checked, ?_, ?_, by simp⟩
          · rw [getTotalAreaOfOverlappingEntities, if_pos hv]
          · have hempty :
                NewReach (naiveSucc ovl bufOf lg) (↑checked) layer.leafletId = ∅ := by
              ext z
              simp only [mem_NewReach, Set.mem_empty_iff_false, iff_false, not_and]
              intro hxv
              exact absurd hv (by exact_mod_cast hxv)
            rw [hempty, Set.union_empty]
      · have hlive : layer.leafletId ∈ liveIds lg := mem_liveIds.mpr ⟨layer, hlg, rfl⟩
        have hx2 : layer.leafletId ∈ liveIds lg \ checked :=
          Finset.mem_sdiff.mpr ⟨hlive, hv⟩
        have hn1 : 1 ≤ n := by
          have := Finset.card_pos.mpr ⟨layer.leafletId, hx2⟩
          omega
        have hQ1 := (IH (n - 1) (by omega)).2
        obtain ⟨fL, hfL⟩ := hQ1 layer lg (insert layer.leafletId checked)
          (fun o ho => ho) (card_sdiff_insert_lt hlive hv hcard)
        refine ⟨fL + 1, fun fuel hfuel => ?_⟩
        cases fuel with
        | zero => omega
        | succ m =>
          rw [getTotalAreaOfOverlappingEntities, if_neg hv]
          obtain ⟨t, c2, heq, hchar, hsum⟩ := hfL (areaFn layer.geo) m (by omega)
          refine ⟨t, c2, heq, ?_, ?_⟩
          · have hsucc : naiveSucc ovl bufOf lg layer.leafletId
                = trueNbrs ovl bufOf lg layer := by
              rw [naiveSucc, getLayer_eq_of_mem lg hnodup layer hlg]
            have htn : (((lg.filter (fun o =>
                (layer.leafletId != o.leafletId) && adjTest ovl bufOf layer o)).map
                  LayerObj.leafletId).toFinset : Finset Nat)
                = trueNbrs ovl bufOf lg layer := rfl
            rw [hchar, iUnion_NewReach_idList, htn, ← hsucc,
              NewReach_head (show layer.leafletId ∉ (↑checked : Set Nat) from
                fun h => hv (by exact_mod_cast h)),
              Finset.coe_insert, ← Set.union_singleton, Set.union_assoc]
          · have hsub : insert layer.leafletId checked ⊆ c2 := by
              intro a ha
              have hmem : (a : Nat) ∈ (↑c2 : Set Nat) := by
                rw [hchar]
                exact Or.inl (by exact_mod_cast ha)
              exact_mod_cast hmem
            rw [hsum,
              sum_insert_sdiff (fun i => (areaOfGroup areaFn lg i).getD 0) hv hsub]
            congr 1
            simp [areaOfGroup, getLayer_eq_of_mem lg hnodup layer hlg]
    refine ⟨hP, ?_⟩
    intro layer l
    induction l with
    | nil =>
      intro checked hl hcard
      refine ⟨1, fun acc fuel hfuel => ?_⟩
      cases fuel with
      | zero => omega
      | succ m =>
        refine ⟨acc, checked, ?_, by simp, by simp⟩
        rw [naiveLoop]
    | cons other rest ihl =>
      intro checked hl hcard
      have hOlg : other ∈ lg := hl other (List.mem_cons_self other rest)
      have hRest : ∀ o ∈ rest, o ∈ lg :=
        fun o ho => hl o (List.mem_cons_of_mem other ho)
      by_cases hid : layer.leafletId = other.leafletId
      · obtain ⟨f2, hf2⟩ := ihl checked hRest hcard
        refine ⟨f2 + 1, fun acc fuel hfuel => ?_⟩
        cases fuel with
        | zero => omega
        | succ m =>
          obtain ⟨t, c2, heq, hchar, hsum⟩ := hf2 acc m (by omega)
          have hPo : ((layer.leafletId != other.leafletId)
              && adjTest ovl bufOf layer other) = false := by
            simp [hid]
          refine ⟨t, c2, ?_, ?_, hsum⟩
          · rw [naiveLoop, if_pos hid]
            exact heq
          · rw [hchar]
            simp only [List.filter_cons, hPo, Bool.false_eq_true, if_false]
      · obtain ⟨p, hp⟩ : ∃ p, getLayerPolygon other.geo = .ok p := by
          cases hgeo : other.geo with
          | feature g => exact ⟨g, rfl⟩
          | featureCollection f0 r0 => exact ⟨f0, rfl⟩
          | unsupported => exact absurd hgeo (hsupp other hOlg)
        have hpadj : adjTest ovl bufOf layer other = ovl (bufOf layer.geo) p := by
          cases hgeo : other.geo with
          | feature g =>
            rw [hgeo] at hp
            simp only [getLayerPolygon, Except.ok.injEq] at hp
            subst hp
            simp [adjTest, hgeo]
          | featureCollection f0 r0 =>
            rw [hgeo] at hp
            simp only [getLayerPolygon, Except.ok.injEq] at hp
            subst hp
            simp [adjTest, hgeo]
          | unsupported => exact absurd hgeo (hsupp other hOlg)
        by_cases hovl : ovl (bufOf layer.geo) p = true
        · obtain ⟨f1, hf1⟩ := hP other checked hOlg hcard
          obtain ⟨t0, chk1, heq0, hchar0, hsum0⟩ := hf1 f1 le_rfl
          have hsub1 : checked ⊆ chk1 := by
            intro a ha
            have hmem : (a : Nat) ∈ (↑chk1 : Set Nat) := by
              rw [hchar0]
              exact Or.inl (by exact_mod_cast ha)
            exact_mod_cast hmem
          obtain ⟨f2, hf2⟩ := ihl chk1 hRest (card_sdiff_mono hsub1 hcard)
          refine ⟨max f1 f2 + 1, fun acc fuel hfuel => ?_⟩
          cases fuel with
          | zero => omega
          | succ m =>
            obtain ⟨t1, chk1b, heqa, hchara, hsuma⟩ := hf1 m (by omega)
            have hchk : chk1b = chk1 :=
              Finset.coe_injective (hchara.trans hchar0.symm)
            rw [hchk] at heqa hsuma
            obtain ⟨t, c2, heq, hchar, hsum⟩ := hf2 (acc + t1) m (by omega)
            have hPo : ((layer.leafletId != other.leafletId)
                && adjTest ovl bufOf layer other) = true := by
              simp only [Bool.and_eq_true, bne_iff_ne, ne_eq, hpadj]
              exact ⟨hid, hovl⟩
            refine ⟨t, c2, ?_, ?_, ?_⟩
            · rw [naiveLoop_cons_step ovl bufOf areaFn lg m layer other rest acc
                checked p hid hp, if_pos hovl, heqa]
              exact heq
            · rw [hchar, hchar0]
              simp only [List.filter_cons, hPo, if_true]
              have hclosed : ∀ a ∈ NewReach (naiveSucc ovl bufOf lg) (↑checked)
                    other.leafletId,
                  ∀ b ∈ naiveSucc ovl bufOf lg a, b ∉ (↑checked : Set Nat) →
                    b ∈ NewReach (naiveSucc ovl bufOf lg) (↑checked) other.leafletId :=
                fun a ha b hb hbv => NewReach_closed ha hb hbv
              have hsubtr : ∀ y2 : Nat,
                  NewReach (naiveSucc ovl bufOf lg)
                      (↑checked ∪ NewReach (naiveSucc ovl bufOf lg) (↑checked)
                        other.leafletId) y2
                    = NewReach (naiveSucc ovl bufOf lg) (↑checked) y2 \
                        NewReach (naiveSucc ovl bufOf lg) (↑checked) other.leafletId :=
                fun y2 => NewReach_union_closed hclosed y2
              ext z
              simp only [Set.mem_union, Set.mem_iUnion, hsubtr, Set.mem_diff,
                List.mem_cons]
              constructor
              · rintro ((hz | hz) | ⟨o, ho, hz, hzA⟩)
                · exact Or.inl hz
                · exact Or.inr ⟨other, Or.inl rfl, hz⟩
                · exact Or.inr ⟨o, Or.inr ho, hz⟩
              · rintro (hz | ⟨o, ho | ho, hz⟩)
                · exact Or.inl (Or.inl hz)
                · exact Or.inl (Or.inr (ho ▸ hz))
                · by_cases hzA : z ∈ NewReach (naiveSucc ovl bufOf lg) (↑checked)
                      other.leafletId
                  · exact Or.inl (Or.inr hzA)
                  · exact Or.inr ⟨o, ho, hz, hzA⟩
            · have hsub2 : chk1 ⊆ c2 := by
                intro a ha
                have hmem : (a : Nat) ∈ (↑c2 : Set Nat) := by
                  rw [hchar]
                  exact Or.inl (by exact_mod_cast ha)
                exact_mod_cast hmem
              rw [hsum, hsuma,
                sum_sdiff_chain (fun i => (areaOfGroup areaFn lg i).getD 0) hsub1 hsub2]
              ring
        · obtain ⟨f2, hf2⟩ := ihl checked hRest hcard
          refine ⟨f2 + 1, fun acc fuel hfuel => ?_⟩
          cases fuel with
          | zero => omega
          | succ m =>
            obtain ⟨t, c2, heq, hchar, hsum⟩ := hf2 acc m (by omega)
            have hPo : ((layer.leafletId != other.leafletId)
                && adjTest ovl bufOf layer other) = false := by
              cases hb : ovl (bufOf layer.geo) p with
              | false => rw [hpadj, hb, Bool.and_false]
              | true => exact absurd hb hovl
            refine ⟨t, c2, ?_, ?_, hsum⟩
            · rw [naiveLoop_cons_step ovl bufOf areaFn lg m layer other rest acc
                checked p hid hp, if_neg hovl]
              exact heq
            · rw [hchar]
              simp only [List.filter_cons, hPo, Bool.false_eq_true, if_false]


/-- **C1 amended.** On a module state whose persistent overlap graph and
area cache agree with the snapshot (the steady state the incremental rule
maintains between evaluations), and for a snapshot with distinct layer ids
and supported geometry shapes, the incremental algorithm and the naive
algorithm compute the same cluster total for any member entity — and hence
the same trigger decision — once both are given enough stack budget. -/
theorem c1_amended_synced_equivalence (ovl : Geom → Geom → Bool)
    (bufOf : GeoJSON → Geom) (areaFn : GeoJSON → ℚ) (lg : List LayerObj)
    (st : ClusterState) (E : LayerObj)
    (hnodup : (lg.map LayerObj.leafletId).Nodup)
    (hsupp : ∀ o ∈ lg, o.geo ≠ GeoJSON.unsupported)
    (hE : E ∈ lg)
    (hsync : clusterSynced ovl bufOf lg st)
    (hcache : cacheConsistent areaFn lg st) :
    ∃ f, ∀ fuel1 fuel2 : Nat, f ≤ fuel1 → f ≤ fuel2 →
      ∃ t : ℚ,
        (fastOverlapTotal ovl bufOf areaFn lg E fuel1 st).2 = .ok t ∧
        (∃ chk, getTotalAreaOfOverlappingEntities ovl bufOf areaFn lg fuel2 E ∅
          = .ok (t, chk)) ∧
        (fastOverlapEval ovl bufOf areaFn lg E fuel1 st).2 = .ok (clusterDecision t) ∧
        isBufferOverlappingRecursiveEval ovl bufOf areaFn lg E fuel2
          = .ok (clusterDecision t) := by
  have hgraph : st.graph = naiveSucc ovl bufOf lg := clusterSynced_graph_eq hnodup hsync
  have hU : ∀ i, naiveSucc ovl bufOf lg i ⊆ liveIds lg :=
    naiveSucc_subset_live ovl bufOf lg
  have hArea : ∀ i ∈ liveIds lg, areaOfGroup areaFn lg i ≠ none :=
    fun i hi => areaOfGroup_live areaFn lg i hi
  have hElive : E.leafletId ∈ liveIds lg := mem_liveIds.mpr ⟨E, hE, rfl⟩
  obtain ⟨f1, hf1⟩ := (recTotalArea_reach (areaOfGroup areaFn lg)
    (naiveSucc ovl bufOf lg) (liveIds lg) hU hArea (liveIds lg \ ∅).card).1
    E.leafletId ∅ hElive le_rfl
  obtain ⟨f2, hf2⟩ := (naive_reach ovl bufOf areaFn lg hnodup hsupp
    (liveIds lg \ ∅).card).1 E ∅ hE le_rfl
  refine ⟨max f1 f2, fun fuel1 fuel2 hfa hfb => ?_⟩
  obtain ⟨c2, vis2, t, heqF, hcharF⟩ :=
    hf1 st.cache fuel1 (le_trans (le_max_left f1 f2) hfa)
  obtain ⟨t2, chk2, heqN, hcharN, hsumN⟩ :=
    hf2 fuel2 (le_trans (le_max_right f1 f2) hfb)
  have hsumF := ((recTotalArea_sum (areaOfGroup areaFn lg)
    (naiveSucc ovl bufOf lg) fuel1).1 E.leafletId st.cache ∅ c2 vis2 t heqF hcache).2.2
  have hvis : vis2 = chk2 := Finset.coe_injective (hcharF.trans hcharN.symm)
  have htt : t = t2 := by
    rw [hsumF, hsumN, hvis]
  have hgc : deleteFromAreaCache (liveIds lg) st = st :=
    deleteFromAreaCache_noop (liveIds lg) st (by rw [hsync.1])
  have hdisc : getOverlappingLayerIds ovl bufOf E lg = .ok (trueNbrs ovl bufOf lg E) :=
    getOverlappingLayerIds_supported ovl bufOf lg hsupp E
  have hupd : updateLayerGraph st E.leafletId (trueNbrs ovl bufOf lg E) true = st :=
    updateLayerGraph_noop st E.leafletId (trueNbrs ovl bufOf lg E)
      (by rw [hsync.1]; exact hElive) (hsync.2.1 E hE)
  have hfastTotal : (fastOverlapTotal ovl bufOf areaFn lg E fuel1 st).2 = .ok t := by
    rw [fastOverlapTotal]
    simp only [hgc, hdisc, hupd, hgraph, heqF]
  have hfastEval : (fastOverlapEval ovl bufOf areaFn lg E fuel1 st).2
      = .ok (clusterDecision t) := by
    simp only [fastOverlapEval]
    rw [hfastTotal]
    rfl
  have hnaiveEval : isBufferOverlappingRecursiveEval ovl bufOf areaFn lg E fuel2
      = .ok (clusterDecision t2) := by
    rw [isBufferOverlappingRecursiveEval, heqN]
  refine ⟨t, hfastTotal, ⟨chk2, ?_⟩, hfastEval, ?_⟩
  · rw [htt]
    exact heqN
  · rw [htt]
    exact hnaiveEval

/-- Witness for the amended C1 on a synced pair snapshot: layers 1 and 2
(areas 700 and 600) are mutually adjacent, the module state records exactly
that graph with an empty cache, and the two algorithms agree. -/
theorem c1_amended_witness :
    ((([exL1, exL2].map LayerObj.leafletId).Nodup) ∧
     (∀ o ∈ [exL1, exL2], o.geo ≠ GeoJSON.unsupported) ∧
     exL1 ∈ [exL1, exL2] ∧
     clusterSynced exOvlPair exBuf [exL1, exL2]
       ⟨{1, 2}, fun i => if i = 1 then {2} else if i = 2 then {1} else ∅,
        ⟨∅, fun _ => 0⟩⟩ ∧
     cacheConsistent exAreaPair [exL1, exL2]
       ⟨{1, 2}, fun i => if i = 1 then {2} else if i = 2 then {1} else ∅,
        ⟨∅, fun _ => 0⟩⟩) ∧
    (∃ f, ∀ fuel1 fuel2 : Nat, f ≤ fuel1 → f ≤ fuel2 →
      ∃ t : ℚ,
        (fastOverlapTotal exOvlPair exBuf exAreaPair [exL1, exL2] exL1 fuel1
          ⟨{1, 2}, fun i => if i = 1 then {2} else if i = 2 then {1} else ∅,
           ⟨∅, fun _ => 0⟩⟩).2 = .ok t ∧
        (∃ chk, getTotalAreaOfOverlappingEntities exOvlPair exBuf exAreaPair
          [exL1, exL2] fuel2 exL1 ∅ = .ok (t, chk)) ∧
        (fastOverlapEval exOvlPair exBuf exAreaPair [exL1, exL2] exL1 fuel1
          ⟨{1, 2}, fun i => if i = 1 then {2} else if i = 2 then {1} else ∅,
           ⟨∅, fun _ => 0⟩⟩).2 = .ok (clusterDecision t) ∧
        isBufferOverlappingRecursiveEval exOvlPair exBuf exAreaPair [exL1, exL2]
          exL1 fuel2 = .ok (clusterDecision t)) := by
  have h1 : ([exL1, exL2].map LayerObj.leafletId).Nodup := by decide
  have h2 : ∀ o ∈ [exL1, exL2], o.geo ≠ GeoJSON.unsupported := by decide
  have h3 : exL1 ∈ [exL1, exL2] := by decide
  have h4 : clusterSynced exOvlPair exBuf [exL1, exL2]
      ⟨{1, 2}, fun i => if i = 1 then {2} else if i = 2 then {1} else ∅,
       ⟨∅, fun _ => 0⟩⟩ := by
    refine ⟨by decide, by decide, ?_⟩
    intro i hi
    by_cases hi1 : i = 1
    · exact absurd (by rw [hi1]; decide) hi
    · by_cases hi2 : i = 2
      · exact absurd (by rw [hi2]; decide) hi
      · simp [hi1, hi2]
  have h5 : cacheConsistent exAreaPair [exL1, exL2]
      ⟨{1, 2}, fun i => if i = 1 then {2} else if i = 2 then {1} else ∅,
       ⟨∅, fun _ => 0⟩⟩ :=
    fun i hi => absurd hi (Finset.not_mem_empty i)
  exact ⟨⟨h1, h2, h3, h4, h5⟩,
    c1_amended_synced_equivalence exOvlPair exBuf exAreaPair [exL1, exL2]
      ⟨{1, 2}, fun i => if i = 1 then {2} else if i = 2 then {1} else ∅,
       ⟨∅, fun _ => 0⟩⟩ exL1 h1 h2 h3 h4 h5⟩


end RuleEngine

